import Mathlib

/-! A shallow embedding of `src/ohmc.c`, the ohmc terminal text editor.

The editor keeps one global `struct state S`.  Every C function that reads or
writes `S` becomes a Lean function taking the state and returning the new one.
A C `int` is an `Int` (the quantities involved are line lengths, line counts and
screen sizes, far from the 32-bit limits), and a C `char` is represented by its
value, again an `Int`.  A pointer `&S.row[i]` is the index `i`.

Two places need the machine widths.  `char` is taken signed and eight bits wide, and
the one assignment of an `int` to a `char`, in `row_insert_char`, goes through
`to_char`.  The counter `dirty` grows by one with every edit and has no tie to the
size of the document: the theorem on dirty accounting and the contract of
`insert_char` carry the hypothesis `dirty_room`, under which no `S.dirty++`
overflows, and in the other theorems a `dirty + n` is to be read below `INT_MAX`.

`erow.chars` holds the bytes `chars[0 .. size)` of the C buffer; the terminating
NUL byte and spare capacity of the allocation are not represented.  The `size`
and `rsize` fields are kept as in the C struct, so that every assignment to
them in the source has a counterpart here.
-/

namespace Ohmc

/-! ## defines -/

/-- `#define OHMC_TABSTOP 8` -/
abbrev OHMC_TABSTOP : Int := 8

/-- `#define OHMC_QUIT_TIMES 3` -/
abbrev OHMC_QUIT_TIMES : Int := 3

/-- `#define CTRL_KEY(k) ((k) & 0x1f)` -/
def CTRL_KEY (k : Nat) : Int := ((k &&& 0x1f : Nat) : Int)

/-- The character constant `'\t'`. -/
abbrev TAB : Int := 9
/-- The character constant `' '`. -/
abbrev SPACE : Int := 32
/-- The character constant `'\n'`. -/
abbrev NL : Int := 10
/-- The character constant `'\r'`. -/
abbrev CR : Int := 13
/-- The character constant `'\x1b'`. -/
abbrev ESC : Int := 27

/-- `INT_MAX` of `<limits.h>` for the 32-bit `int`. -/
abbrev INT_MAX : Int := 2147483647

/-- `INT_MIN` of `<limits.h>` for the 32-bit `int`. -/
abbrev INT_MIN : Int := -2147483648

/-- `CHAR_MIN` of `<limits.h>`, with `char` signed. -/
abbrev CHAR_MIN : Int := -128

/-- `CHAR_MAX` of `<limits.h>`, with `char` signed. -/
abbrev CHAR_MAX : Int := 127

/-- The conversion of an `int` to `char`, as the assignment `row->chars[at] = c` performs it:
a value within `CHAR_MIN .. CHAR_MAX` is kept, any other is reduced modulo 256 into that
range (the conversion gcc and clang define), so that `200` becomes `-56`. -/
def to_char (c : Int) : Int := (c - CHAR_MIN) % 256 + CHAR_MIN

/-- `enum key_mappings`, first member. -/
abbrev BACKSPACE : Int := 127
abbrev ARROW_LEFT : Int := 1000
abbrev ARROW_RIGHT : Int := 1001
abbrev ARROW_UP : Int := 1002
abbrev ARROW_DOWN : Int := 1003
abbrev DEL_KEY : Int := 1004
abbrev HOME_KEY : Int := 1005
abbrev END_KEY : Int := 1006
abbrev PAGE_UP : Int := 1007
abbrev PAGE_DOWN : Int := 1008

/-! ## data -/

/-- `typedef struct editor_row { int size; int rsize; char *chars; char *render; } erow;` -/
structure erow where
  size : Int
  rsize : Int
  chars : List Int
  render : List Int
  deriving DecidableEq, Repr, Inhabited

/-! ## row operations -/

/-- Body of the `for` loop of `row_cx_to_rx`, run over the bytes `chars[j]`, `j < cx`:
`if (row->chars[j] == '\t') rx += (OHMC_TABSTOP - 1) - (rx % OHMC_TABSTOP); rx++;`.
`rx` is never negative, so C's `%` and Lean's agree. -/
def row_cx_to_rx_loop : List Int → Int → Int
  | [], rx => rx
  | c :: cs, rx =>
    row_cx_to_rx_loop cs
      ((if c = TAB then rx + ((OHMC_TABSTOP - 1) - (rx % OHMC_TABSTOP)) else rx) + 1)

/-- `int row_cx_to_rx(erow *row, int cx)` -/
def row_cx_to_rx (row : erow) (cx : Int) : Int :=
  row_cx_to_rx_loop (row.chars.take cx.toNat) 0

/-- The inner loop of `update_row`: `while (idx % OHMC_TABSTOP != 0) row->render[idx++] = ' ';`.
The part of `render` written so far is the list, `idx` is its length.  The first argument
bounds the number of iterations; `update_row_pad_exit` shows that `OHMC_TABSTOP` of them
always suffice for the loop to leave through its condition. -/
def update_row_pad : Nat → List Int → List Int
  | 0, render => render
  | fuel + 1, render =>
    if (render.length : Int) % OHMC_TABSTOP ≠ 0 then update_row_pad fuel (render ++ [SPACE])
    else render

/-- The second `for` loop of `update_row`, over the bytes `chars[j]`, `j < size`. -/
def update_row_loop : List Int → List Int → List Int
  | [], render => render
  | c :: cs, render =>
    if c = TAB then update_row_loop cs (update_row_pad 8 (render ++ [SPACE]))
    else update_row_loop cs (render ++ [c])

/-- `void update_row(erow *row)`: rebuilds `render` and `rsize` from `chars` and `size`. -/
def update_row (row : erow) : erow :=
  let render := update_row_loop (row.chars.take row.size.toNat) []
  { row with render := render, rsize := render.length }

/-- The row that holds the first `cx` bytes of `row`. -/
def erow.pfx (row : erow) (cx : Int) : erow :=
  { row with size := cx, chars := row.chars.take cx.toNat }

/-- The messages passed to `set_status_message`.  The formatted text is not represented,
only which format string was used and its argument. -/
inductive StatusMsg where
  /-- `statusmsg[0] = '\0'` -/
  | empty
  /-- `"HELP: ctrl+s = save | ctrl+q = quit"` -/
  | help
  /-- `"WARNING!!! File has unsaved changes. Press Ctrl-Q %d more times to quit."` -/
  | quit_warning (quit_times : Int)
  /-- `"Aborted save"` -/
  | aborted_save
  /-- `"%d bytes written to disk"` -/
  | bytes_written (len : Int)
  /-- `"Failed to save: %s"` -/
  | save_failed
  deriving DecidableEq, Repr

/-- `struct state`.  Of its members `filename`, `statusmsg_time` and `orig_termios` are not
represented; `quit_times` is the `static int quit_times` of `process_keypress`. -/
structure state where
  rows : Int
  cols : Int
  cx : Int
  cy : Int
  rx : Int
  rowoff : Int
  coloff : Int
  numrows : Int
  row : List erow
  dirty : Int
  statusmsg : StatusMsg
  quit_times : Int
  deriving DecidableEq, Repr

/-- `S.row[i]` -/
def state.row_at (S : state) (i : Int) : erow := S.row.getD i.toNat default

/-- `void insert_row(int at, char *s, size_t len)`.  `s` lists the bytes found at the
pointer `s`, of which the first `len` are copied. -/
def insert_row (S : state) (at_ : Int) (s : List Int) (len : Int) : state :=
  if at_ < 0 ∨ at_ > S.numrows then S
  else
    let r : erow := update_row { size := len, rsize := 0, chars := s.take len.toNat, render := [] }
    { S with
      row := S.row.take at_.toNat ++ r :: S.row.drop at_.toNat
      numrows := S.numrows + 1
      dirty := S.dirty + 1 }

/-- `void del_row(int at)` -/
def del_row (S : state) (at_ : Int) : state :=
  if at_ < 0 ∨ at_ ≥ S.numrows then S
  else
    { S with
      row := S.row.take at_.toNat ++ S.row.drop (at_.toNat + 1)
      numrows := S.numrows - 1
      dirty := S.dirty + 1 }

/-- `void row_insert_char(erow *row, int at, int c)` with `row = &S.row[r]`.  The assignment
`row->chars[at] = c` converts the `int c` to `char`: the byte stored is `to_char c`. -/
def row_insert_char (S : state) (r : Nat) (at_ : Int) (c : Int) : state :=
  let row := S.row.getD r default
  let at_ := if at_ < 0 ∨ at_ > row.size then row.size else at_
  let row := update_row { row with
    chars := row.chars.take at_.toNat ++ to_char c :: row.chars.drop at_.toNat
    size := row.size + 1 }
  { S with row := S.row.set r row, dirty := S.dirty + 1 }

/-- `void row_append_string(erow *row, char *s, size_t len)` with `row = &S.row[r]`. -/
def row_append_string (S : state) (r : Nat) (s : List Int) (len : Int) : state :=
  let row := S.row.getD r default
  let row := update_row { row with
    chars := row.chars ++ s.take len.toNat
    size := row.size + len }
  { S with row := S.row.set r row, dirty := S.dirty + 1 }

/-- `void row_del_char(erow *row, int at)` with `row = &S.row[r]`.  The `memmove` shifts the
bytes after `at` one place down; `row->size--` then shortens the row by one. -/
def row_del_char (S : state) (r : Nat) (at_ : Int) : state :=
  let row := S.row.getD r default
  if at_ < 0 ∨ at_ > row.size then S
  else
    let row := update_row { row with
      chars := (row.chars.take at_.toNat ++ row.chars.drop (at_.toNat + 1)).take (row.size - 1).toNat
      size := row.size - 1 }
    { S with row := S.row.set r row, dirty := S.dirty + 1 }

/-! ## editor operations -/

/-- `void insert_char(int c)` -/
def insert_char (S : state) (c : Int) : state :=
  let S := if S.cy = S.numrows then insert_row S S.numrows [] 0 else S
  let S := row_insert_char S S.cy.toNat S.cx c
  { S with cx := S.cx + 1 }

/-- `void insert_newline()` -/
def insert_newline (S : state) : state :=
  let S :=
    if S.cx = 0 then insert_row S S.cy [] 0
    else
      let row := S.row_at S.cy
      let S := insert_row S (S.cy + 1) (row.chars.drop S.cx.toNat) (row.size - S.cx)
      let row := S.row_at S.cy
      let row := update_row { row with size := S.cx, chars := row.chars.take S.cx.toNat }
      { S with row := S.row.set S.cy.toNat row }
  { S with cy := S.cy + 1, cx := 0 }

/-- `void del_char()` -/
def del_char (S : state) : state :=
  if S.cy = S.numrows then S
  else if S.cx = 0 ∧ S.cy = 0 then S
  else if S.cx > 0 then
    let S := row_del_char S S.cy.toNat (S.cx - 1)
    { S with cx := S.cx - 1 }
  else
    let row := S.row_at S.cy
    let S := { S with cx := (S.row_at (S.cy - 1)).size }
    let S := row_append_string S (S.cy - 1).toNat row.chars row.size
    let S := del_row S S.cy
    { S with cy := S.cy - 1 }

/-! ## file io -/

/-- `char *rows_to_string(int *buflen)`: the buffer and `*buflen`. -/
def rows_to_string (S : state) : List Int × Int :=
  let rs := S.row.take S.numrows.toNat
  (rs.foldl (fun buf r => buf ++ r.chars.take r.size.toNat ++ [NL]) [],
   rs.foldl (fun totlen r => totlen + (r.size + 1)) 0)

/-- The successive results of `getline` on a stream holding `file`: each line with its
terminating `'\n'`, the last one possibly without.  The second argument is the line read
so far. -/
def getlines : List Int → List Int → List (List Int)
  | [], cur => if cur = [] then [] else [cur]
  | c :: cs, cur => if c = NL then (cur ++ [c]) :: getlines cs [] else getlines cs (cur ++ [c])

/-- The loop `while (linelen > 0 && (line[linelen - 1] == '\n' || line[linelen - 1] == '\r'))
linelen--;` of `editor_open`; the result is the final `linelen`. -/
def strip_linelen (line : List Int) : Nat → Nat
  | 0 => 0
  | linelen + 1 =>
    if line.getD linelen 0 = NL ∨ line.getD linelen 0 = CR then strip_linelen line linelen
    else linelen + 1

/-- `void editor_open(char *filename)` for a file that could be opened and holds the bytes
`file`. -/
def editor_open (S : state) (file : List Int) : state :=
  let S := (getlines file []).foldl
    (fun S line => insert_row S S.numrows line (strip_linelen line line.length)) S
  { S with dirty := 0 }

/-- What the environment makes of a call of `save`: the prompt for a file name was cancelled,
the file was written, or opening, truncating or writing it failed. -/
inductive SaveOutcome where
  | aborted
  | written
  | failed
  deriving DecidableEq, Repr

/-- `void save()`, as far as the represented part of the state goes. -/
def save (io : SaveOutcome) (S : state) : state :=
  match io with
  | .aborted => { S with statusmsg := .aborted_save }
  | .written => { S with dirty := 0, statusmsg := .bytes_written (rows_to_string S).2 }
  | .failed => { S with statusmsg := .save_failed }

/-! ## input -/

/-- The `switch (key)` statement of `move_cursor`, with the `row` that is computed before
it. -/
def move_cursor_switch (S : state) (key : Int) : state :=
  let row : Option erow := if S.cy ≥ S.numrows then none else some (S.row_at S.cy)
  if key = ARROW_LEFT then
    if S.cx ≠ 0 then { S with cx := S.cx - 1 }
    else if S.cy > 0 then
      let S := { S with cy := S.cy - 1 }
      { S with cx := (S.row_at S.cy).size }
    else S
  else if key = ARROW_RIGHT then
    match row with
    | some r =>
      if r.size > S.cx then { S with cx := S.cx + 1 }
      else if S.cx = r.size then { S with cy := S.cy + 1, cx := 0 }
      else S
    | none => S
  else if key = ARROW_UP then
    if S.cy ≠ 0 then { S with cy := S.cy - 1 } else S
  else if key = ARROW_DOWN then
    if S.cy < S.numrows then { S with cy := S.cy + 1 } else S
  else S

/-- The statements of `move_cursor` after the `switch`: `row` is computed again and `cx` is
cut back to its length. -/
def move_cursor_clamp (S : state) : state :=
  let row : Option erow := if S.cy ≥ S.numrows then none else some (S.row_at S.cy)
  let rowlen := match row with
    | some r => r.size
    | none => 0
  if S.cx > rowlen then { S with cx := rowlen } else S

/-- `void move_cursor(int key)` -/
def move_cursor (S : state) (key : Int) : state :=
  move_cursor_clamp (move_cursor_switch S key)

/-- The loop `while (times--) move_cursor(key);` for a count `times ≥ 0`. -/
def move_cursor_times (key : Int) : Nat → state → state
  | 0, S => S
  | times + 1, S => move_cursor_times key times (move_cursor S key)

/-- How a call of `process_keypress` ends. -/
inductive Outcome where
  /-- The function returned; the main loop goes on with this state. -/
  | running (S : state)
  /-- `exit(status)` was called in state `S`, after writing `written` to the terminal. -/
  | exited (status : Int) (written : List Int) (S : state)
  /-- The page loop was entered with a negative count: it does not end before `times--`
  overflows, so there is no defined result. -/
  | undefined
  deriving DecidableEq, Repr

/-- `void process_keypress()`, given the key `c` that its call of `read_key` returned and the
environment's answer should the key be the save key. -/
def process_keypress (io : SaveOutcome) (S : state) (c : Int) : Outcome :=
  if c = CR then
    .running { insert_newline S with quit_times := OHMC_QUIT_TIMES }
  else if c = CTRL_KEY 113 then
    let S :=
      if S.dirty ≠ 0 ∧ S.quit_times > 0 then
        { S with statusmsg := .quit_warning S.quit_times, quit_times := S.quit_times - 1 }
      else S
    .exited 0 [ESC, 91, 50, 74, ESC, 91, 72] S
  else if c = CTRL_KEY 115 then
    .running { save io S with quit_times := OHMC_QUIT_TIMES }
  else if c = PAGE_UP ∨ c = PAGE_DOWN then
    let S :=
      if c = PAGE_UP then { S with cy := S.rowoff }
      else if c = PAGE_DOWN then
        let S := { S with cy := S.rowoff + S.rows - 1 }
        if S.cy > S.numrows then { S with cy := S.numrows } else S
      else S
    if S.rows < 0 then .undefined
    else
      let S := move_cursor_times (if c = PAGE_UP then ARROW_UP else ARROW_DOWN) S.rows.toNat S
      .running { S with quit_times := OHMC_QUIT_TIMES }
  else if c = HOME_KEY then
    .running { S with cx := 0, quit_times := OHMC_QUIT_TIMES }
  else if c = END_KEY then
    let S := if S.cy < S.numrows then { S with cx := (S.row_at S.cy).size } else S
    .running { S with quit_times := OHMC_QUIT_TIMES }
  else if c = BACKSPACE ∨ c = CTRL_KEY 104 ∨ c = DEL_KEY then
    let S := if c = DEL_KEY then move_cursor S ARROW_RIGHT else S
    .running { del_char S with quit_times := OHMC_QUIT_TIMES }
  else if c = ARROW_UP ∨ c = ARROW_DOWN ∨ c = ARROW_LEFT ∨ c = ARROW_RIGHT then
    .running { move_cursor S c with quit_times := OHMC_QUIT_TIMES }
  else if c = CTRL_KEY 108 ∨ c = ESC then
    .running { S with quit_times := OHMC_QUIT_TIMES }
  else
    .running { insert_char S c with quit_times := OHMC_QUIT_TIMES }

/-! ## output -/

/-- `void scroll()`.  It assigns to `S.rx`, `S.rowoff` and `S.coloff` only; the three are
carried as local values and stored at the end. -/
def scroll (S : state) : state :=
  let rx := 0
  let rx := if S.cy < S.numrows then row_cx_to_rx (S.row_at S.cy) S.cx else rx
  let rowoff := if S.cy < S.rowoff then S.cy else S.rowoff
  let rowoff := if S.cy ≥ rowoff + S.rows then S.cy - S.rows + 1 else rowoff
  let coloff := if rx < S.coloff then rx else S.coloff
  let coloff := if rx ≥ coloff + S.cols then rx - S.cols + 1 else coloff
  { S with rx := rx, rowoff := rowoff, coloff := coloff }

/-- `void refresh_screen()`: the state it leaves and the two numbers it formats into the
cursor-position escape `"\x1b[%d;%dH"`.  The rest of the frame is not represented. -/
def refresh_screen (S : state) : state × (Int × Int) :=
  let S := scroll S
  (S, ((S.cy - S.rowoff) + 1, (S.rx - S.coloff) + 1))

/-! ## init -/

/-- `void init()`, for a terminal whose size `get_window_size` reports as `ws_row` by
`ws_col`. -/
def init (ws_row ws_col : Int) : state :=
  { cx := 0, cy := 0, rx := 0, rowoff := 0, coloff := 0, numrows := 0, row := [], dirty := 0
    statusmsg := .empty
    rows := ws_row - 2
    cols := ws_col
    quit_times := OHMC_QUIT_TIMES }

/-- The state in which `main` enters its loop: `init`, `editor_open` when a file was named,
and the help message. -/
def main_start (ws_row ws_col : Int) (file : Option (List Int)) : state :=
  let S := init ws_row ws_col
  let S := match file with
    | some bytes => editor_open S bytes
    | none => S
  { S with statusmsg := .help }

/-- One turn of `while (1) { refresh_screen(); process_keypress(); }`. -/
def main_iteration (S : state) (ev : SaveOutcome × Int) : Outcome :=
  process_keypress ev.1 (refresh_screen S).1 ev.2

/-- The main loop run on a finite sequence of keys. -/
def main_loop : state → List (SaveOutcome × Int) → Outcome
  | S, [] => .running S
  | S, ev :: evs =>
    match main_iteration S ev with
    | .running S1 => main_loop S1 evs
    | o => o

/-! ## terminal -/

/-- What one call `read(STDIN_FILENO, &c, 1)` gives: a byte (stored in a `char`, whose value
is `c`), nothing within the time limit (`read` returns 0), or failure with `errno` set to
`EAGAIN` or to something else. -/
inductive ReadResult where
  | byte (c : Int)
  | timeout
  | eagain
  | error
  deriving DecidableEq, Repr

/-- How a call of `read_key` ends. -/
inductive KeyResult where
  /-- The key returned and the reads still to come. -/
  | key (k : Int) (rest : List ReadResult)
  /-- `die("read")` -/
  | died
  /-- Every read that is left times out: the first loop never ends. -/
  | blocked
  deriving DecidableEq, Repr

/-- The part of `read_key` after its first byte turned out to be `'\x1b'`.  A read that does
not deliver a byte, whatever the reason, gives a bare escape; on an exhausted input every
read times out. -/
def read_key_escape (input : List ReadResult) : KeyResult :=
  match input with
  | .byte seq0 :: .byte seq1 :: rest =>
    if seq0 = 91 then
      if seq1 ≥ 48 ∧ seq1 ≤ 57 then
        match rest with
        | .byte seq2 :: rest2 =>
          if seq2 = 126 then
            if seq1 = 49 then .key HOME_KEY rest2
            else if seq1 = 51 then .key DEL_KEY rest2
            else if seq1 = 52 then .key END_KEY rest2
            else if seq1 = 53 then .key PAGE_UP rest2
            else if seq1 = 54 then .key PAGE_DOWN rest2
            else if seq1 = 55 then .key HOME_KEY rest2
            else if seq1 = 56 then .key END_KEY rest2
            else .key ESC rest2
          else .key ESC rest2
        | _ :: rest2 => .key ESC rest2
        | [] => .key ESC []
      else
        if seq1 = 65 then .key ARROW_UP rest
        else if seq1 = 66 then .key ARROW_DOWN rest
        else if seq1 = 67 then .key ARROW_RIGHT rest
        else if seq1 = 68 then .key ARROW_LEFT rest
        else if seq1 = 72 then .key HOME_KEY rest
        else if seq1 = 70 then .key END_KEY rest
        else .key ESC rest
    else if seq0 = 79 then
      if seq1 = 72 then .key HOME_KEY rest
      else if seq1 = 70 then .key END_KEY rest
      else .key ESC rest
    else .key ESC rest
  | .byte _ :: _ :: rest => .key ESC rest
  | .byte _ :: [] => .key ESC []
  | _ :: rest => .key ESC rest
  | [] => .key ESC []

/-- `int read_key()` on the sequence of results that the calls of `read` will give. -/
def read_key : List ReadResult → KeyResult
  | [] => .blocked
  | .byte c :: rest => if c = ESC then read_key_escape rest else .key c rest
  | .timeout :: rest => read_key rest
  | .eagain :: rest => read_key rest
  | .error :: _ => .died

/-! ## Predicates of the specification -/

/-- The range of values of a `char`, signed or unsigned: every value that `read_key` can
find in its `char c` after a `read`, whichever the signedness.  `read_key` only compares the
byte and returns it, so it behaves alike on the whole range. -/
def is_char (c : Int) : Prop := -128 ≤ c ∧ c ≤ 255

instance (c : Int) : Decidable (is_char c) := by unfold is_char; infer_instance

/-- The values of a `char`, `CHAR_MIN ≤ c ≤ CHAR_MAX`: the bytes that `read_key` returns and
`process_keypress` hands to `insert_char`. -/
def is_char_value (c : Int) : Prop := CHAR_MIN ≤ c ∧ c ≤ CHAR_MAX

instance (c : Int) : Decidable (is_char_value c) := by unfold is_char_value; infer_instance

/-- The counter `dirty` holds an `int`, and `n` more increments `S.dirty++` do not overflow
it. -/
def dirty_room (S : state) (n : Int) : Prop := INT_MIN ≤ S.dirty ∧ S.dirty + n ≤ INT_MAX

instance (S : state) (n : Int) : Decidable (dirty_room S n) := by unfold dirty_room; infer_instance

/-- The stored sizes of a document are the lengths of what is stored: `numrows` rows, each
with `size` bytes. -/
def state.wf (S : state) : Prop :=
  S.numrows = S.row.length ∧ ∀ r ∈ S.row, r.size = r.chars.length

instance (S : state) : Decidable S.wf := by unfold state.wf; infer_instance

/-- No row has a stale render: running `update_row` on it changes nothing. -/
def state.fresh (S : state) : Prop := ∀ r ∈ S.row, update_row r = r

instance (S : state) : Decidable S.fresh := by unfold state.fresh; infer_instance

/-- The cursor bounds `Valid(S)`: `0 ≤ cy ≤ numrows`, `0 ≤ cx ≤ row[cy].size` on a row, and
`cx = 0` past the last row. -/
def Valid (S : state) : Prop :=
  0 ≤ S.cy ∧ S.cy ≤ S.numrows
  ∧ (S.cy < S.numrows → 0 ≤ S.cx ∧ S.cx ≤ (S.row_at S.cy).size)
  ∧ (S.cy = S.numrows → S.cx = 0)

instance (S : state) : Decidable (Valid S) := by unfold Valid; infer_instance

/-- The invariant of the main loop used to establish `Valid`: well-formed sizes, a valid
cursor, a row offset that is not negative and at least one text row on the screen. -/
def Inv (S : state) : Prop := S.wf ∧ Valid S ∧ 0 ≤ S.rowoff ∧ 1 ≤ S.rows

/-- The decoding table of the specification (section 4.1): the bytes that follow `ESC` and
the named key they stand for. -/
def decoding_table : List (List Int × Int) :=
  [ ([91, 65], ARROW_UP), ([91, 66], ARROW_DOWN), ([91, 67], ARROW_RIGHT), ([91, 68], ARROW_LEFT),
    ([91, 72], HOME_KEY), ([79, 72], HOME_KEY), ([91, 49, 126], HOME_KEY), ([91, 55, 126], HOME_KEY),
    ([91, 70], END_KEY), ([79, 70], END_KEY), ([91, 52, 126], END_KEY), ([91, 56, 126], END_KEY),
    ([91, 51, 126], DEL_KEY), ([91, 53, 126], PAGE_UP), ([91, 54, 126], PAGE_DOWN) ]

/-- A read that delivers no byte: a timeout or a failure. -/
def ReadResult.no_byte : ReadResult → Prop
  | .byte _ => False
  | _ => True

instance (r : ReadResult) : Decidable r.no_byte := by
  cases r <;> unfold ReadResult.no_byte <;> infer_instance

/-- A read that, if it delivers a byte, delivers the value of a `char`. -/
def ReadResult.in_range : ReadResult → Prop
  | .byte c => is_char c
  | _ => True

instance (r : ReadResult) : Decidable r.in_range := by
  cases r <;> unfold ReadResult.in_range <;> infer_instance

/-- The named keys of `enum key_mappings`: `ARROW_LEFT` to `PAGE_DOWN`. -/
def named_key (k : Int) : Prop := ARROW_LEFT ≤ k ∧ k ≤ PAGE_DOWN

instance (k : Int) : Decidable (named_key k) := by unfold named_key; infer_instance

/-! ## Sample documents -/

/-- The document `["abc", "de", "fghij"]` with the cursor at `(1, 0)`. -/
def docABC : state :=
  { rows := 24, cols := 80, cx := 0, cy := 1, rx := 0, rowoff := 0, coloff := 0, numrows := 3
    row := [⟨3, 3, [97, 98, 99], [97, 98, 99]⟩, ⟨2, 2, [100, 101], [100, 101]⟩,
            ⟨5, 5, [102, 103, 104, 105, 106], [102, 103, 104, 105, 106]⟩]
    dirty := 0, statusmsg := .help, quit_times := 3 }

/-- The document `["a\tb", "cd"]` with the cursor at `(0, 2)`, behind the tab. -/
def docTab : state :=
  { rows := 24, cols := 80, cx := 2, cy := 0, rx := 0, rowoff := 0, coloff := 0, numrows := 2
    row := [⟨3, 9, [97, 9, 98], [97, 32, 32, 32, 32, 32, 32, 32, 98]⟩, ⟨2, 2, [99, 100], [99, 100]⟩]
    dirty := 0, statusmsg := .help, quit_times := 3 }

/-- The reference projection of the specification (section 4.2, tab stop 8): `chars` is scanned
left to right with the display column `d`; a byte other than a tab is copied and `d` grows by
one, a tab is replaced by `8 - d % 8` spaces. -/
def render_spec : List Int → Nat → List Int
  | [], _ => []
  | c :: cs, d =>
    if c = TAB then List.replicate (8 - d % 8) SPACE ++ render_spec cs (d + (8 - d % 8))
    else c :: render_spec cs (d + 1)

/-- The length of row `i` as the cursor movement sees it: `row ? row->size : 0`, that is 0 at
the position past the last row. -/
def row_len (S : state) (i : Int) : Int :=
  if i ≥ S.numrows then 0 else (S.row_at i).size

/-- The rows on which the cursor lands during `n` Down moves that start on row `cy`. -/
def page_down_rows (cy numrows : Int) (n : Nat) : List Int :=
  (List.range n).map (fun i : Nat => min (cy + ((i : Int) + 1)) numrows)

/-- The rows on which the cursor lands during `n` Up moves that start on row `cy`. -/
def page_up_rows (cy : Int) (n : Nat) : List Int :=
  (List.range n).map (fun i : Nat => max (cy - ((i : Int) + 1)) 0)

/-- The minimum of the column `cx` and the lengths of the rows `landed`. -/
def walk_column (S : state) (cx : Int) (landed : List Int) : Int :=
  (landed.map (row_len S)).foldl min cx

/-- A document of four rows of lengths 5, 5, 0 and 5 on a screen of two text rows, with the
cursor at the end of the first row. -/
def docRagged : state :=
  { rows := 2, cols := 80, cx := 5, cy := 0, rx := 5, rowoff := 0, coloff := 0, numrows := 4
    row := [⟨5, 5, [97, 98, 99, 100, 101], [97, 98, 99, 100, 101]⟩,
            ⟨5, 5, [102, 103, 104, 105, 106], [102, 103, 104, 105, 106]⟩,
            ⟨0, 0, [], []⟩,
            ⟨5, 5, [107, 108, 109, 110, 111], [107, 108, 109, 110, 111]⟩]
    dirty := 0, statusmsg := .help, quit_times := 3 }

/-- The document `["abc", "de", "fghij"]` with the cursor past the last row. -/
def docEnd : state := { docABC with cy := 3, cx := 0 }

/-- The document `["abc", "de", "fghij"]` with one unsaved change. -/
def docDirty : state := { docABC with dirty := 1 }

/-- The file made of the lines `ls`, each followed by `'\n'`. -/
def file_of_lines : List (List Int) → List Int
  | [] => []
  | l :: ls => l ++ NL :: file_of_lines ls

/-- The offset of the cursor in the serialized document: the rows before `cy`, each with its
line break, and then `cx` bytes of row `cy`. -/
def cursor_offset (S : state) : Nat :=
  (file_of_lines ((S.row.take S.cy.toNat).map erow.chars)).length + S.cx.toNat

/-! ## Lemmas on the render projection -/

theorem update_row_pad_spec (fuel : Nat) (render : List Int)
    (h : (8 - render.length % 8) % 8 ≤ fuel) :
    update_row_pad fuel render
      = render ++ List.replicate ((8 - render.length % 8) % 8) SPACE := by
  induction fuel generalizing render with
  | zero =>
    have h0 : (8 - render.length % 8) % 8 = 0 := by omega
    simp [update_row_pad, h0]
  | succ n ih =>
    unfold update_row_pad
    by_cases hc : (render.length : Int) % OHMC_TABSTOP ≠ 0
    · rw [if_pos hc]
      have hlen : (render ++ [SPACE]).length = render.length + 1 := by simp
      have hc2 : render.length % 8 ≠ 0 := by
        simp only [OHMC_TABSTOP] at hc; omega
      rw [ih (render ++ [SPACE]) (by rw [hlen]; omega), hlen]
      have e : (8 - render.length % 8) % 8 = (8 - (render.length + 1) % 8) % 8 + 1 := by omega
      rw [e, List.replicate_succ]
      simp
    · rw [if_neg hc]
      have hc2 : render.length % 8 = 0 := by
        simp only [OHMC_TABSTOP] at hc; omega
      simp [hc2]

/-- The padding loop always leaves through its condition: with the iteration bound used in
`update_row_loop` the index reached is a multiple of the tab stop. -/
theorem update_row_pad_exit (render : List Int) :
    ((update_row_pad 8 render).length : Int) % OHMC_TABSTOP = 0 := by
  rw [update_row_pad_spec 8 render (by omega)]
  simp only [List.length_append, List.length_replicate, OHMC_TABSTOP]
  omega

theorem update_row_pad_length (render : List Int) :
    ((update_row_pad 8 (render ++ [SPACE])).length : Int)
      = render.length + ((OHMC_TABSTOP - 1) - (render.length : Int) % OHMC_TABSTOP) + 1 := by
  rw [update_row_pad_spec 8 _ (by omega)]
  simp only [List.length_append, List.length_replicate, List.length_singleton, OHMC_TABSTOP]
  omega

/-- The render loop only appends to what is already written. -/
theorem update_row_loop_append (cs : List Int) (render : List Int) :
    ∃ out, update_row_loop cs render = render ++ out := by
  induction cs generalizing render with
  | nil => exact ⟨[], by simp [update_row_loop]⟩
  | cons c cs ih =>
    unfold update_row_loop
    by_cases hc : c = TAB
    · rw [if_pos hc, update_row_pad_spec 8 _ (by omega)]
      obtain ⟨out, ho⟩ := ih (render ++ [SPACE] ++
        List.replicate ((8 - (render ++ [SPACE]).length % 8) % 8) SPACE)
      exact ⟨_, by rw [ho, List.append_assoc, List.append_assoc]⟩
    · rw [if_neg hc]
      obtain ⟨out, ho⟩ := ih (render ++ [c])
      exact ⟨_, by rw [ho, List.append_assoc]⟩

theorem update_row_loop_concat (as bs : List Int) (render : List Int) :
    update_row_loop (as ++ bs) render = update_row_loop bs (update_row_loop as render) := by
  induction as generalizing render with
  | nil => rfl
  | cons c cs ih =>
    simp only [List.cons_append, update_row_loop]
    split <;> exact ih _

/-- The display column computed by `row_cx_to_rx` is the write index of `update_row`. -/
theorem update_row_loop_length (cs : List Int) (render : List Int) :
    ((update_row_loop cs render).length : Int) = row_cx_to_rx_loop cs render.length := by
  induction cs generalizing render with
  | nil => rfl
  | cons c cs ih =>
    unfold update_row_loop row_cx_to_rx_loop
    by_cases hc : c = TAB
    · rw [if_pos hc, if_pos hc, ih, update_row_pad_length]
    · rw [if_neg hc, if_neg hc, ih]
      simp only [List.length_append, List.length_singleton, Nat.cast_add, Nat.cast_one]

theorem row_cx_to_rx_loop_nonneg (cs : List Int) (rx : Int) (h : 0 ≤ rx) :
    0 ≤ row_cx_to_rx_loop cs rx := by
  induction cs generalizing rx with
  | nil => exact h
  | cons c cs ih =>
    unfold row_cx_to_rx_loop
    apply ih
    split <;> (try simp only [OHMC_TABSTOP]) <;> omega

/-! ## C1 -/

/-- C1. Render/column consistency: for a row whose `size` is the length of its `chars` and a
logical column `0 ≤ cx ≤ size`, `row_cx_to_rx row cx` is the `rsize` that `update_row` computes
for the prefix `chars[0..cx)`, the render of that prefix is exactly the first
`row_cx_to_rx row cx` bytes of the render of the whole row, and
`row_cx_to_rx row size = rsize`. -/
theorem render_column_consistency (row : erow) (cx : Int)
    (hwf : row.size = row.chars.length) (_h0 : 0 ≤ cx) (_h1 : cx ≤ row.size) :
    row_cx_to_rx row cx = (update_row (row.pfx cx)).rsize
    ∧ (update_row (row.pfx cx)).render
        = (update_row row).render.take (row_cx_to_rx row cx).toNat
    ∧ row_cx_to_rx row row.size = (update_row row).rsize := by
  have hlen : ∀ cs : List Int,
      ((update_row_loop cs []).length : Int) = row_cx_to_rx_loop cs 0 := by
    intro cs
    simpa using update_row_loop_length cs []
  have htake : (row.chars.take cx.toNat).take cx.toNat = row.chars.take cx.toNat := by
    rw [List.take_take]; simp
  refine ⟨?_, ?_, ?_⟩
  · simp only [row_cx_to_rx, update_row, erow.pfx, htake]
    exact (hlen _).symm
  · simp only [row_cx_to_rx, update_row, erow.pfx, htake]
    have hfull : row.chars.take row.size.toNat = row.chars := by
      apply List.take_of_length_le; omega
    rw [hfull]
    have hsplit : update_row_loop row.chars []
        = update_row_loop (row.chars.drop cx.toNat) (update_row_loop (row.chars.take cx.toNat) []) := by
      rw [← update_row_loop_concat, List.take_append_drop]
    obtain ⟨out, ho⟩ := update_row_loop_append (row.chars.drop cx.toNat)
      (update_row_loop (row.chars.take cx.toNat) [])
    rw [hsplit, ho, ← hlen]
    simp
  · simp only [row_cx_to_rx, update_row]
    exact (hlen _).symm

theorem render_column_consistency_witness :
    row_cx_to_rx ⟨3, 0, [97, 9, 98], []⟩ 2 = (update_row (erow.pfx ⟨3, 0, [97, 9, 98], []⟩ 2)).rsize
    ∧ (update_row (erow.pfx ⟨3, 0, [97, 9, 98], []⟩ 2)).render
        = (update_row ⟨3, 0, [97, 9, 98], []⟩).render.take
            (row_cx_to_rx ⟨3, 0, [97, 9, 98], []⟩ 2).toNat
    ∧ row_cx_to_rx ⟨3, 0, [97, 9, 98], []⟩ (erow.size ⟨3, 0, [97, 9, 98], []⟩)
        = (update_row ⟨3, 0, [97, 9, 98], []⟩).rsize :=
  render_column_consistency ⟨3, 0, [97, 9, 98], []⟩ 2 (by decide) (by decide) (by decide)

/-! ## C3 -/

/-- C3. Viewport visibility: in a state with a valid cursor, at least one screen row and at
least one screen column, `scroll` leaves the cursor and the document alone, sets `rx` to
`row_cx_to_rx (row[cy], cx)` (to 0 past the last row), and leaves offsets with
`rowoff ≤ cy < rowoff + rows` and `coloff ≤ rx < coloff + cols`; the two numbers that
`refresh_screen` puts into the cursor-position escape are `cy - rowoff + 1` and
`rx - coloff + 1` of that state and lie in `[1, rows]` and `[1, cols]`. -/
theorem scroll_visibility (S : state) (_hv : Valid S) (hr : 1 ≤ S.rows) (hc : 1 ≤ S.cols) :
    ((scroll S).cx = S.cx ∧ (scroll S).cy = S.cy ∧ (scroll S).row = S.row
      ∧ (scroll S).numrows = S.numrows ∧ (scroll S).rows = S.rows ∧ (scroll S).cols = S.cols)
    ∧ (S.cy < S.numrows → (scroll S).rx = row_cx_to_rx (S.row_at S.cy) S.cx)
    ∧ (S.cy = S.numrows → (scroll S).rx = 0)
    ∧ ((scroll S).rowoff ≤ (scroll S).cy ∧ (scroll S).cy < (scroll S).rowoff + (scroll S).rows)
    ∧ ((scroll S).coloff ≤ (scroll S).rx ∧ (scroll S).rx < (scroll S).coloff + (scroll S).cols)
    ∧ (refresh_screen S).1 = scroll S
    ∧ (refresh_screen S).2
        = ((scroll S).cy - (scroll S).rowoff + 1, (scroll S).rx - (scroll S).coloff + 1)
    ∧ (1 ≤ (refresh_screen S).2.1 ∧ (refresh_screen S).2.1 ≤ S.rows)
    ∧ (1 ≤ (refresh_screen S).2.2 ∧ (refresh_screen S).2.2 ≤ S.cols) := by
  refine ⟨⟨rfl, rfl, rfl, rfl, rfl, rfl⟩, ?_, ?_, ?_, ?_, rfl, rfl, ?_, ?_⟩
  · intro h
    simp only [scroll, if_pos h]
  · intro h
    simp only [scroll, if_neg (show ¬ S.cy < S.numrows by omega)]
  · simp only [scroll]
    split_ifs <;> omega
  · simp only [scroll]
    split_ifs <;> omega
  · simp only [refresh_screen, scroll]
    split_ifs <;> omega
  · simp only [refresh_screen, scroll]
    split_ifs <;> omega


/-! ## Helper lemmas on the document -/

theorem row_at_mem (S : state) (i : Int) (h0 : 0 ≤ i) (h1 : i < S.row.length) :
    S.row_at i ∈ S.row := by
  have h : i.toNat < S.row.length := by omega
  simp only [state.row_at, List.getD_eq_getElem _ _ h]
  exact List.getElem_mem h

theorem wf_row_at (S : state) (hwf : S.wf) (i : Int) (h0 : 0 ≤ i) (h1 : i < S.numrows) :
    (S.row_at i).size = (S.row_at i).chars.length :=
  hwf.2 _ (row_at_mem S i h0 (by rw [← hwf.1]; exact h1))

theorem set_take_drop {α : Type} (l : List α) (n : Nat) (x : α) (h : n + 1 < l.length) :
    (l.set n x).take (n + 1) ++ (l.set n x).drop (n + 1 + 1) = l.take n ++ x :: l.drop (n + 2) := by
  rw [List.set_eq_take_append_cons_drop, if_pos (by omega)]
  have hl : (l.take n).length = n := by rw [List.length_take]; omega
  have e1 : (l.take n ++ x :: l.drop (n + 1)).take (n + 1) = l.take n ++ [x] := by
    rw [List.take_append_eq_append_take, hl, List.take_of_length_le (by omega)]
    simp
  have e2 : (l.take n ++ x :: l.drop (n + 1)).drop (n + 1 + 1) = l.drop (n + 2) := by
    rw [List.drop_append_eq_append_drop, hl, List.drop_of_length_le (by omega)]
    have e : n + 1 + 1 - n = 1 + 1 := by omega
    rw [e]
    simp
  rw [e1, e2]
  simp

theorem insert_row_eq (S : state) (at_ : Int) (s : List Int) (len : Int)
    (h0 : 0 ≤ at_) (h1 : at_ ≤ S.numrows) :
    insert_row S at_ s len = { S with
      row := S.row.take at_.toNat
        ++ update_row { size := len, rsize := 0, chars := s.take len.toNat, render := [] }
        :: S.row.drop at_.toNat
      numrows := S.numrows + 1
      dirty := S.dirty + 1 } := by
  unfold insert_row
  rw [if_neg (by omega)]

theorem del_row_eq (S : state) (at_ : Int) (h0 : 0 ≤ at_) (h1 : at_ < S.numrows) :
    del_row S at_ = { S with
      row := S.row.take at_.toNat ++ S.row.drop (at_.toNat + 1)
      numrows := S.numrows - 1
      dirty := S.dirty + 1 } := by
  unfold del_row
  rw [if_neg (by omega)]

theorem row_insert_char_eq (S : state) (r : Nat) (at_ c : Int)
    (h0 : 0 ≤ at_) (h1 : at_ ≤ (S.row.getD r default).size) :
    row_insert_char S r at_ c = { S with
      row := S.row.set r (update_row { S.row.getD r default with
        chars := (S.row.getD r default).chars.take at_.toNat
          ++ to_char c :: (S.row.getD r default).chars.drop at_.toNat
        size := (S.row.getD r default).size + 1 })
      dirty := S.dirty + 1 } := by
  unfold row_insert_char
  simp only
  rw [if_neg (by omega)]

theorem row_del_char_eq (S : state) (r : Nat) (at_ : Int)
    (h0 : 0 ≤ at_) (h1 : at_ < (S.row.getD r default).size)
    (hsz : (S.row.getD r default).size = (S.row.getD r default).chars.length) :
    row_del_char S r at_ = { S with
      row := S.row.set r (update_row { S.row.getD r default with
        chars := (S.row.getD r default).chars.eraseIdx at_.toNat
        size := (S.row.getD r default).size - 1 })
      dirty := S.dirty + 1 } := by
  unfold row_del_char
  simp only
  rw [if_neg (by omega), List.eraseIdx_eq_take_drop_succ, List.take_of_length_le]
  simp only [List.length_append, List.length_take, List.length_drop]
  omega

theorem update_row_size (r : erow) : (update_row r).size = r.size := rfl

theorem update_row_chars (r : erow) : (update_row r).chars = r.chars := rfl

/-- `update_row` reads `size` and `chars` only. -/
theorem update_row_congr (r1 r2 : erow) (hs : r1.size = r2.size) (hc : r1.chars = r2.chars) :
    update_row r1 = update_row r2 := by
  simp only [update_row, hs, hc]

theorem update_row_idem (r : erow) : update_row (update_row r) = update_row r :=
  update_row_congr _ _ rfl rfl

theorem update_row_render (r : erow) (h : r.size = r.chars.length) :
    (update_row r).render = update_row_loop r.chars []
    ∧ (update_row r).rsize = (update_row_loop r.chars []).length := by
  have e : r.chars.take r.size.toNat = r.chars := List.take_of_length_le (by omega)
  simp only [update_row, e, and_self]

theorem del_char_noop (S : state) (h : S.cy = S.numrows ∨ (S.cx = 0 ∧ S.cy = 0)) :
    del_char S = S := by
  rcases h with h | ⟨h1, h2⟩
  · simp [del_char, h]
  · simp [del_char, h1, h2]

theorem valid_on_row (S : state) (hv : Valid S) (hcx : S.cx > 0) : S.cy < S.numrows := by
  obtain ⟨_, hcy1, _, hpast⟩ := hv
  rcases lt_or_eq_of_le hcy1 with h | h
  · exact h
  · have := hpast h; omega

theorem del_char_in_row_of (S : state) (_hcy0 : 0 ≤ S.cy) (hlt : S.cy < S.numrows)
    (hsz : (S.row_at S.cy).size = (S.row_at S.cy).chars.length)
    (hcx : S.cx > 0) (hle : S.cx ≤ (S.row_at S.cy).size) :
    del_char S = { S with
      row := S.row.set S.cy.toNat (update_row { S.row_at S.cy with
        chars := (S.row_at S.cy).chars.eraseIdx (S.cx - 1).toNat
        size := (S.row_at S.cy).size - 1 })
      dirty := S.dirty + 1
      cx := S.cx - 1 } := by
  have hne : S.cy ≠ S.numrows := by omega
  have h2 : ¬ (S.cx = 0 ∧ S.cy = 0) := by omega
  simp only [state.row_at] at hsz hle ⊢
  simp only [del_char, if_neg hne, if_neg h2, if_pos hcx]
  rw [row_del_char_eq S _ _ (by omega) (by omega) hsz]

theorem del_char_in_row (S : state) (hwf : S.wf) (hv : Valid S) (hcx : S.cx > 0) :
    del_char S = { S with
      row := S.row.set S.cy.toNat (update_row { S.row_at S.cy with
        chars := (S.row_at S.cy).chars.eraseIdx (S.cx - 1).toNat
        size := (S.row_at S.cy).size - 1 })
      dirty := S.dirty + 1
      cx := S.cx - 1 } :=
  have hlt := valid_on_row S hv hcx
  del_char_in_row_of S hv.1 hlt (wf_row_at S hwf S.cy hv.1 hlt) hcx (hv.2.2.1 hlt).2

theorem del_char_join_of (S : state) (hnum : S.numrows = S.row.length)
    (hszc : (S.row_at S.cy).size = (S.row_at S.cy).chars.length)
    (hcx : S.cx = 0) (hcy : S.cy > 0) (hlt : S.cy < S.numrows) :
    del_char S = { S with
      row := S.row.take (S.cy - 1).toNat
        ++ update_row { S.row_at (S.cy - 1) with
            chars := (S.row_at (S.cy - 1)).chars ++ (S.row_at S.cy).chars
            size := (S.row_at (S.cy - 1)).size + (S.row_at S.cy).size }
        :: S.row.drop (S.cy + 1).toNat
      numrows := S.numrows - 1
      dirty := S.dirty + 2
      cy := S.cy - 1
      cx := (S.row_at (S.cy - 1)).size } := by
  have hne : S.cy ≠ S.numrows := by omega
  have h2 : ¬ (S.cx = 0 ∧ S.cy = 0) := by omega
  have h3 : ¬ (S.cx > 0) := by omega
  obtain ⟨n, hn⟩ : ∃ n : Nat, S.cy = n + 1 := ⟨(S.cy - 1).toNat, by omega⟩
  have e1 : (S.cy - 1).toNat = n := by omega
  have e2 : S.cy.toNat = n + 1 := by omega
  have e3 : (S.cy + 1).toNat = n + 2 := by omega
  have hlen : n + 1 < S.row.length := by omega
  have e4 : ((S.row.getD (n + 1) default).size).toNat
      = (S.row.getD (n + 1) default).chars.length := by
    simp only [state.row_at, e2] at hszc; omega
  have hg : ¬ (S.cy < 0 ∨ S.cy ≥ S.numrows) := by omega
  obtain ⟨rows, cols, cx, cy, rx, rowoff, coloff, numrows, row, dirty, msg, qt⟩ := S
  simp only at *
  simp only [del_char, if_neg hne, if_neg h2, if_neg h3, row_append_string, del_row, if_neg hg,
    state.row_at, e1, e2, e3, e4, set_take_drop _ _ _ hlen, List.take_length]
  congr 1
  omega

theorem del_char_join (S : state) (hwf : S.wf) (hcx : S.cx = 0) (hcy : S.cy > 0)
    (hlt : S.cy < S.numrows) :
    del_char S = { S with
      row := S.row.take (S.cy - 1).toNat
        ++ update_row { S.row_at (S.cy - 1) with
            chars := (S.row_at (S.cy - 1)).chars ++ (S.row_at S.cy).chars
            size := (S.row_at (S.cy - 1)).size + (S.row_at S.cy).size }
        :: S.row.drop (S.cy + 1).toNat
      numrows := S.numrows - 1
      dirty := S.dirty + 2
      cy := S.cy - 1
      cx := (S.row_at (S.cy - 1)).size } :=
  del_char_join_of S hwf.1 (wf_row_at S hwf S.cy (by omega) hlt) hcx hcy hlt

/-! ## C4 -/

/-- C4. `del_char` on a valid state: (1) at `(0, 0)` or past the last row nothing changes;
(2) with `cx > 0` the byte at index `cx - 1` is erased from row `cy`, the other rows stay and
`cx` goes down by one; (3) with `cx = 0` on a row `cy > 0`, row `cy - 1` becomes its old
content followed by that of row `cy`, row `cy` disappears, `numrows` goes down by one and the
cursor moves to `(cy - 1, old size of row cy - 1)`.  On `["abc", "de", "fghij"]` with the
cursor at `(1, 0)` the result is `["abcde", "fghij"]` with the cursor at `(0, 3)`. -/
theorem del_char_three_cases (S : state) (hwf : S.wf) (hv : Valid S) :
    ((S.cy = S.numrows ∨ (S.cx = 0 ∧ S.cy = 0)) → del_char S = S)
    ∧ (S.cx > 0 →
        del_char S = { S with
          row := S.row.set S.cy.toNat (update_row { S.row_at S.cy with
            chars := (S.row_at S.cy).chars.eraseIdx (S.cx - 1).toNat
            size := (S.row_at S.cy).size - 1 })
          dirty := S.dirty + 1
          cx := S.cx - 1 })
    ∧ (S.cx = 0 → S.cy > 0 → S.cy < S.numrows →
        del_char S = { S with
          row := S.row.take (S.cy - 1).toNat
            ++ update_row { S.row_at (S.cy - 1) with
                chars := (S.row_at (S.cy - 1)).chars ++ (S.row_at S.cy).chars
                size := (S.row_at (S.cy - 1)).size + (S.row_at S.cy).size }
            :: S.row.drop (S.cy + 1).toNat
          numrows := S.numrows - 1
          dirty := S.dirty + 2
          cy := S.cy - 1
          cx := (S.row_at (S.cy - 1)).size })
    ∧ ((del_char docABC).row.map erow.chars = [[97, 98, 99, 100, 101], [102, 103, 104, 105, 106]]
        ∧ (del_char docABC).numrows = 2
        ∧ ((del_char docABC).cy, (del_char docABC).cx) = (0, 3)) :=
  ⟨del_char_noop S, del_char_in_row S hwf hv, del_char_join S hwf, by decide⟩

theorem del_char_three_cases_witness :
    docABC.wf ∧ Valid docABC
    ∧ del_char docABC = { docABC with
        row := [⟨5, 5, [97, 98, 99, 100, 101], [97, 98, 99, 100, 101]⟩,
                ⟨5, 5, [102, 103, 104, 105, 106], [102, 103, 104, 105, 106]⟩]
        numrows := 2
        dirty := 2
        cy := 0
        cx := 3 } :=
  ⟨by decide, by decide,
    ((del_char_three_cases docABC (by decide) (by decide)).2.2.1
      (by decide) (by decide) (by decide)).trans (by decide)⟩

theorem getD_insert_at {α : Type} (l : List α) (x d : α) :
    (l.take l.length ++ x :: l.drop l.length).getD l.length d = x := by
  simp [List.getD_eq_getElem?_getD]

theorem getD_set_self {α : Type} (l : List α) (i : Nat) (x d : α) (h : i < l.length) :
    (l.set i x).getD i d = x := by
  simp [List.getD_eq_getElem?_getD, h]

theorem getD_set_other {α : Type} (l : List α) (i j : Nat) (x d : α) (h : i ≠ j) :
    (l.set i x).getD j d = l.getD j d := by
  simp [List.getD_eq_getElem?_getD, List.getElem?_set, h]

theorem getD_concat_length {α : Type} (l : List α) (x d : α) :
    (l ++ [x]).getD l.length d = x := by
  simp [List.getD_eq_getElem?_getD]

theorem insert_char_on_row (S : state) (c : Int) (hv : Valid S) (hlt : S.cy < S.numrows) :
    insert_char S c = { S with
      row := S.row.set S.cy.toNat (update_row { S.row_at S.cy with
        chars := (S.row_at S.cy).chars.take S.cx.toNat
          ++ to_char c :: (S.row_at S.cy).chars.drop S.cx.toNat
        size := (S.row_at S.cy).size + 1 })
      dirty := S.dirty + 1
      cx := S.cx + 1 } := by
  obtain ⟨hcy0, hcy1, hon, hpast⟩ := hv
  obtain ⟨hcx0, hcx1⟩ := hon hlt
  have hne : S.cy ≠ S.numrows := by omega
  simp only [state.row_at] at hcx1 ⊢
  simp only [insert_char, if_neg hne]
  rw [row_insert_char_eq S _ _ c hcx0 hcx1]

theorem insert_char_past_end (S : state) (c : Int) (hwf : S.wf) (hv : Valid S)
    (heq : S.cy = S.numrows) :
    insert_char S c = { S with
      row := S.row ++ [update_row { size := 1, rsize := 0, chars := [to_char c], render := [] }]
      numrows := S.numrows + 1
      dirty := S.dirty + 2
      cx := 1 } := by
  obtain ⟨hcy0, hcy1, hon, hpast⟩ := hv
  have hcx := hpast heq
  have hnum := hwf.1
  have e1 : S.numrows.toNat = S.row.length := by omega
  obtain ⟨rows, cols, cx, cy, rx, rowoff, coloff, numrows, row, dirty, msg, qt⟩ := S
  simp only at *
  subst hcx heq
  have hg : ¬ (cy < 0 ∨ cy > cy) := by omega
  have hg2 : ¬ ((0 : Int) < 0 ∨ (0 : Int) > 0) := by omega
  simp only [insert_char, if_true, insert_row, if_neg hg, row_insert_char, e1, getD_insert_at,
    update_row_size, update_row_chars, if_neg hg2]
  simp only [List.take_length, List.drop_length, Int.toNat_zero, List.take_zero, List.drop_zero,
    List.take_nil, List.drop_nil, List.nil_append, zero_add]
  congr 1
  · rw [List.set_eq_take_append_cons_drop]
    simp
    apply update_row_congr <;> rfl
  · omega

/-! ## C5 -/

theorem to_char_of_value (c : Int) (hc : is_char_value c) : to_char c = c := by
  simp only [is_char_value, CHAR_MIN, CHAR_MAX] at hc
  simp only [to_char, CHAR_MIN]
  omega

theorem to_char_is_value (c : Int) : is_char_value (to_char c) := by
  simp only [is_char_value, to_char, CHAR_MIN, CHAR_MAX]
  omega

theorem insert_char_to_char (S : state) (c : Int) : insert_char S c = insert_char S (to_char c) := by
  simp only [insert_char, row_insert_char, to_char_of_value _ (to_char_is_value c)]

/-- The conversion at work: the `int` 200 is stored as the `char` -56, and a byte that is the
value of a `char` is stored as it is. -/
theorem row_insert_char_converts :
    to_char 200 = -56
    ∧ ((row_insert_char docABC 1 1 200).row_at 1).chars = [100, -56, 101]
    ∧ ((row_insert_char docABC 1 1 (-56)).row_at 1).chars = [100, -56, 101]
    ∧ ((row_insert_char docABC 1 1 120).row_at 1).chars = [100, 120, 101] := by
  decide

/-- C5. `insert_char c` on a valid state, for a byte `c` (the value of a `char`), with the
`dirty` counter two increments away from `INT_MAX`.  On a row (`cy < numrows`) the number of
rows stays, row `cy` gets `c` inserted at index `cx` (its `size` grows by one) and is
re-rendered by `update_row`, every other row stays.  Past the last row (`cy = numrows`) a row
is appended first, so the document gains the one-byte row `[c]`, rendered by `update_row`.  In
both cases the cursor becomes `(cy, cx + 1)`, and the render of row `cy` is the tab expansion
of its new `chars`, and the counter is still an `int`.  For an `int` that is not the value of
a `char`, the assignment `row->chars[at] = c` converts it first: `insert_char b` acts as
`insert_char (to_char b)`. -/
theorem insert_char_contract (S : state) (c : Int) (hwf : S.wf) (hv : Valid S)
    (hc : is_char_value c) (hd : dirty_room S 2) :
    (S.cy < S.numrows →
      insert_char S c = { S with
        row := S.row.set S.cy.toNat (update_row { S.row_at S.cy with
          chars := (S.row_at S.cy).chars.take S.cx.toNat
            ++ c :: (S.row_at S.cy).chars.drop S.cx.toNat
          size := (S.row_at S.cy).size + 1 })
        dirty := S.dirty + 1
        cx := S.cx + 1 })
    ∧ (S.cy = S.numrows →
      insert_char S c = { S with
        row := S.row ++ [update_row { size := 1, rsize := 0, chars := [c], render := [] }]
        numrows := S.numrows + 1
        dirty := S.dirty + 2
        cx := S.cx + 1 })
    ∧ ((insert_char S c).cy = S.cy ∧ (insert_char S c).cx = S.cx + 1)
    ∧ (((insert_char S c).row_at S.cy).render
          = update_row_loop ((insert_char S c).row_at S.cy).chars []
        ∧ ((insert_char S c).row_at S.cy).rsize
          = (update_row_loop ((insert_char S c).row_at S.cy).chars []).length)
    ∧ dirty_room (insert_char S c) 0
    ∧ (∀ b : Int, is_char_value (to_char b) ∧ insert_char S b = insert_char S (to_char b)) := by
  have hcy0 := hv.1
  have hnum := hwf.1
  have htc := to_char_of_value c hc
  refine ⟨?_, ?_, ?_, ?_, ?_, fun b => ⟨to_char_is_value b, insert_char_to_char S b⟩⟩
  · intro hlt
    rw [insert_char_on_row S c hv hlt, htc]
  · intro heq
    rw [insert_char_past_end S c hwf hv heq, hv.2.2.2 heq, htc]
    rfl
  · rcases lt_or_eq_of_le hv.2.1 with hlt | heq
    · rw [insert_char_on_row S c hv hlt]
      exact ⟨rfl, rfl⟩
    · rw [insert_char_past_end S c hwf hv heq, hv.2.2.2 heq]
      exact ⟨rfl, rfl⟩
  · rcases lt_or_eq_of_le hv.2.1 with hlt | heq
    · have hsz := wf_row_at S hwf S.cy hcy0 hlt
      obtain ⟨hcx0, hcx1⟩ := hv.2.2.1 hlt
      rw [insert_char_on_row S c hv hlt]
      simp only [state.row_at] at hsz hcx1 ⊢
      rw [getD_set_self _ _ _ _ (by omega)]
      apply update_row_render
      simp only [List.length_append, List.length_take, List.length_cons, List.length_drop]
      omega
    · rw [insert_char_past_end S c hwf hv heq]
      have e : S.cy.toNat = S.row.length := by omega
      simp only [state.row_at, e, getD_concat_length]
      exact update_row_render _ rfl
  · simp only [dirty_room, INT_MIN, INT_MAX] at hd ⊢
    rcases lt_or_eq_of_le hv.2.1 with hlt | heq
    · rw [insert_char_on_row S c hv hlt]
      simp only
      omega
    · rw [insert_char_past_end S c hwf hv heq]
      simp only
      omega

theorem getD_insert_before {α : Type} (l : List α) (n : Nat) (y d : α) (h : n < l.length) :
    (l.take (n + 1) ++ y :: l.drop (n + 1)).getD n d = l.getD n d := by
  rw [List.getD_append _ _ _ _ (by rw [List.length_take]; omega)]
  simp [List.getD_eq_getElem?_getD, List.getElem?_take]

theorem insert_then_set {α : Type} (l : List α) (n : Nat) (x y : α) (h : n < l.length) :
    (l.take (n + 1) ++ y :: l.drop (n + 1)).set n x = l.take n ++ x :: y :: l.drop (n + 1) := by
  have hl : (l.take n).length = n := by rw [List.length_take]; omega
  have e : l.take (n + 1) = l.take n ++ [l[n]] := by
    rw [List.take_succ, List.getElem?_eq_getElem h]; rfl
  rw [e, List.append_assoc, List.set_append_right _ _ (by omega), hl]
  simp

theorem getD_insert_here {α : Type} (pre rest : List α) (n : Nat) (x d : α)
    (hl : pre.length = n) : (pre ++ x :: rest).getD n d = x := by
  rw [List.getD_append_right _ _ _ _ (by omega), hl]
  simp

theorem getD_insert_after {α : Type} (pre rest : List α) (n : Nat) (x y d : α)
    (hl : pre.length = n) : (pre ++ x :: y :: rest).getD (n + 1) d = y := by
  rw [List.getD_append_right _ _ _ _ (by omega), hl]
  simp

theorem update_row_empty : update_row { size := 0, rsize := 0, chars := [], render := [] }
    = { size := 0, rsize := 0, chars := [], render := [] } := by decide

theorem insert_newline_col0 (S : state) (hv : Valid S) (hcx : S.cx = 0) :
    insert_newline S = { S with
      row := S.row.take S.cy.toNat
        ++ { size := 0, rsize := 0, chars := [], render := [] } :: S.row.drop S.cy.toNat
      numrows := S.numrows + 1
      dirty := S.dirty + 1
      cy := S.cy + 1
      cx := 0 } := by
  obtain ⟨hcy0, hcy1, hon, hpast⟩ := hv
  simp only [insert_newline, if_pos hcx]
  rw [insert_row_eq S _ _ _ hcy0 hcy1]
  simp only [Int.toNat_zero, List.take_nil, update_row_empty]

theorem insert_newline_split (S : state) (hwf : S.wf) (hv : Valid S) (hcx : S.cx ≠ 0) :
    insert_newline S = { S with
      row := S.row.take S.cy.toNat
        ++ update_row { S.row_at S.cy with
            size := S.cx
            chars := (S.row_at S.cy).chars.take S.cx.toNat }
        :: update_row { size := (S.row_at S.cy).size - S.cx, rsize := 0
                        chars := (S.row_at S.cy).chars.drop S.cx.toNat, render := [] }
        :: S.row.drop (S.cy + 1).toNat
      numrows := S.numrows + 1
      dirty := S.dirty + 1
      cy := S.cy + 1
      cx := 0 } := by
  have hlt : S.cy < S.numrows := by
    rcases lt_or_eq_of_le hv.2.1 with h | h
    · exact h
    · exact absurd (hv.2.2.2 h) hcx
  obtain ⟨hcy0, hcy1, hon, hpast⟩ := hv
  obtain ⟨hcx0, hcx1⟩ := hon hlt
  have hsz := wf_row_at S hwf S.cy hcy0 hlt
  have hnum := hwf.1
  obtain ⟨n, hn⟩ : ∃ n : Nat, S.cy = n := ⟨S.cy.toNat, by omega⟩
  have e1 : S.cy.toNat = n := by omega
  have e2 : (S.cy + 1).toNat = n + 1 := by omega
  have hlen : n < S.row.length := by omega
  have hg : ¬ (S.cy + 1 < 0 ∨ S.cy + 1 > S.numrows) := by omega
  simp only [state.row_at, e1] at hsz hcx1
  have e3 : ((S.row.getD n default).chars.drop S.cx.toNat).take
      ((S.row.getD n default).size - S.cx).toNat = (S.row.getD n default).chars.drop S.cx.toNat := by
    apply List.take_of_length_le
    rw [List.length_drop]; omega
  obtain ⟨rows, cols, cx, cy, rx, rowoff, coloff, numrows, row, dirty, msg, qt⟩ := S
  simp only at *
  simp only [insert_newline, if_neg hcx, insert_row, if_neg hg, state.row_at, e1, e2,
    getD_insert_before _ _ _ _ hlen, insert_then_set _ _ _ _ hlen, e3]

/-! ## C6 -/

/-- C6. `insert_newline` on a valid state.  With `cx = 0` an empty row is inserted at index
`cy` and the old rows from `cy` on move down by one.  Otherwise row `cy` keeps `chars[0..cx)`
and a new row `cy + 1` with `chars[cx..size)` is inserted before the old rows `cy + 1 ..`.
In both cases `numrows` grows by exactly one, the rows before `cy` stay, the cursor becomes
`(cy + 1, 0)`, and the rows at `cy` and `cy + 1` of the new document that were written have a
render that `update_row` would leave as it is. -/
theorem insert_newline_contract (S : state) (hwf : S.wf) (hv : Valid S) :
    (S.cx = 0 →
      insert_newline S = { S with
        row := S.row.take S.cy.toNat
          ++ { size := 0, rsize := 0, chars := [], render := [] } :: S.row.drop S.cy.toNat
        numrows := S.numrows + 1
        dirty := S.dirty + 1
        cy := S.cy + 1
        cx := 0 })
    ∧ (S.cx ≠ 0 →
      insert_newline S = { S with
        row := S.row.take S.cy.toNat
          ++ update_row { S.row_at S.cy with
              size := S.cx
              chars := (S.row_at S.cy).chars.take S.cx.toNat }
          :: update_row { size := (S.row_at S.cy).size - S.cx, rsize := 0
                          chars := (S.row_at S.cy).chars.drop S.cx.toNat, render := [] }
          :: S.row.drop (S.cy + 1).toNat
        numrows := S.numrows + 1
        dirty := S.dirty + 1
        cy := S.cy + 1
        cx := 0 })
    ∧ ((insert_newline S).numrows = S.numrows + 1
        ∧ (insert_newline S).row.length = S.row.length + 1
        ∧ (insert_newline S).row.take S.cy.toNat = S.row.take S.cy.toNat
        ∧ (insert_newline S).cy = S.cy + 1 ∧ (insert_newline S).cx = 0)
    ∧ update_row ((insert_newline S).row_at S.cy) = (insert_newline S).row_at S.cy
    ∧ (S.cx ≠ 0 →
        update_row ((insert_newline S).row_at (S.cy + 1)) = (insert_newline S).row_at (S.cy + 1)) := by
  have hcy0 := hv.1
  have hcy1 := hv.2.1
  have hnum := hwf.1
  have hl : (S.row.take S.cy.toNat).length = S.cy.toNat := by rw [List.length_take]; omega
  have e2 : (S.cy + 1).toNat = S.cy.toNat + 1 := by omega
  refine ⟨insert_newline_col0 S hv, insert_newline_split S hwf hv, ?_, ?_, ?_⟩
  · by_cases hcx : S.cx = 0
    · rw [insert_newline_col0 S hv hcx]
      refine ⟨rfl, ?_, ?_, rfl, rfl⟩
      · simp only [List.length_append, List.length_cons, List.length_take, List.length_drop]
        omega
      · simp only
        rw [List.take_left' hl]
    · have hlt : S.cy < S.numrows := by
        rcases lt_or_eq_of_le hv.2.1 with h | h
        · exact h
        · exact absurd (hv.2.2.2 h) hcx
      rw [insert_newline_split S hwf hv hcx]
      refine ⟨rfl, ?_, ?_, rfl, rfl⟩
      · simp only [List.length_append, List.length_cons, List.length_take, List.length_drop]
        omega
      · simp only
        rw [List.take_left' hl]
  · by_cases hcx : S.cx = 0
    · rw [insert_newline_col0 S hv hcx]
      simp only [state.row_at]
      rw [getD_insert_here _ _ _ _ _ hl]
      exact update_row_empty
    · rw [insert_newline_split S hwf hv hcx]
      simp only [state.row_at]
      rw [getD_insert_here _ _ _ _ _ hl]
      exact update_row_idem _
  · intro hcx
    rw [insert_newline_split S hwf hv hcx]
    simp only [state.row_at, e2]
    rw [getD_insert_after _ _ _ _ _ _ hl]
    exact update_row_idem _


theorem drop_two_after {α : Type} (pre rest : List α) (n : Nat) (x y : α)
    (hl : pre.length = n) : (pre ++ x :: y :: rest).drop (n + 2) = rest := by
  rw [List.drop_append_eq_append_drop, hl, List.drop_of_length_le (by omega)]
  have e : n + 2 - n = 2 := by omega
  rw [e]
  rfl

theorem del_char_join_shape (T : state) (pre post : List erow) (L R : erow) (n : Nat)
    (hrow : T.row = pre ++ L :: R :: post) (hpre : pre.length = n) (hcy : T.cy = n + 1)
    (hcx : T.cx = 0) (hnum : T.numrows = T.row.length) (hR : R.size = R.chars.length) :
    del_char T = { T with
      row := pre ++ update_row { L with chars := L.chars ++ R.chars, size := L.size + R.size }
        :: post
      numrows := T.numrows - 1
      dirty := T.dirty + 2
      cy := n
      cx := L.size } := by
  have e1 : (T.cy - 1).toNat = n := by omega
  have e2 : T.cy.toNat = n + 1 := by omega
  have e3 : (T.cy + 1).toNat = n + 2 := by omega
  have hlen : T.row.length = n + 2 + post.length := by
    rw [hrow]; simp only [List.length_append, List.length_cons]; omega
  have hRat : T.row_at T.cy = R := by
    simp only [state.row_at, e2, hrow]
    exact getD_insert_after _ _ _ _ _ _ hpre
  have hLat : T.row_at (T.cy - 1) = L := by
    simp only [state.row_at, e1, hrow]
    exact getD_insert_here _ _ _ _ _ hpre
  rw [del_char_join_of T hnum (by rw [hRat]; exact hR) hcx (by omega) (by omega)]
  rw [hRat, hLat, e1, e3, hrow, List.take_left' hpre, drop_two_after _ _ _ _ _ hpre]
  have e4 : T.cy - 1 = n := by omega
  rw [e4]

theorem row_decomp (S : state) (n : Nat) (h : n < S.row.length) :
    S.row = S.row.take n ++ S.row.getD n default :: S.row.drop (n + 1) := by
  rw [List.getD_eq_getElem _ _ h, List.getElem_cons_drop, List.take_append_drop]

theorem join_rows (L R cur : erow) (hs : L.size + R.size = cur.size)
    (hc : L.chars ++ R.chars = cur.chars) (hfr : update_row cur = cur) :
    update_row { L with chars := L.chars ++ R.chars, size := L.size + R.size } = cur := by
  rw [← hfr]
  exact update_row_congr _ _ hs hc

/-- Splitting a row and joining the two halves again gives the state back, but for `dirty`. -/
theorem del_char_insert_newline (S : state) (hwf : S.wf) (hv : Valid S)
    (hfr : update_row (S.row_at S.cy) = S.row_at S.cy) (hlt : S.cy < S.numrows) :
    del_char (insert_newline S) = { S with dirty := S.dirty + 3 } := by
  obtain ⟨hcy0, hcy1, hon, hpast⟩ := id hv
  obtain ⟨hcx0, hcx1⟩ := hon hlt
  have hnum := hwf.1
  have hsz := wf_row_at S hwf S.cy hcy0 hlt
  obtain ⟨n, hn⟩ : ∃ n : Nat, S.cy = n := ⟨S.cy.toNat, by omega⟩
  have e1 : S.cy.toNat = n := by omega
  have e2 : (S.cy + 1).toNat = n + 1 := by omega
  have hlen : n < S.row.length := by omega
  have hpre : (S.row.take n).length = n := by rw [List.length_take]; omega
  have hdec := row_decomp S n hlen
  have hdrop : S.row.drop n = S.row.getD n default :: S.row.drop (n + 1) := by
    rw [List.getD_eq_getElem _ _ hlen, List.getElem_cons_drop]
  have hlen2 : ∀ x y : erow, ((S.row.take n ++ x :: y :: S.row.drop (n + 1)).length : Int)
      = S.numrows + 1 := by
    intro x y
    simp only [List.length_append, List.length_cons, List.length_take, List.length_drop,
      Nat.cast_add, Nat.cast_one]
    omega
  simp only [state.row_at, e1] at hfr hsz hcx1
  by_cases hcx : S.cx = 0
  · rw [insert_newline_col0 S hv hcx]
    rw [del_char_join_shape _ (S.row.take n) (S.row.drop (n + 1))
      { size := 0, rsize := 0, chars := [], render := [] } (S.row.getD n default) n
      (by simp only [e1, hdrop]) hpre (by simp only [hn]) rfl
      (by simp only [e1, hdrop]; exact (hlen2 _ _).symm) hsz]
    rw [join_rows _ _ (S.row.getD n default) (by simp only [zero_add])
      (by simp only [List.nil_append]) hfr, ← hdec]
    obtain ⟨rows, cols, cx, cy, rx, rowoff, coloff, numrows, row, dirty, msg, qt⟩ := S
    simp only at *
    congr 1 <;> omega
  · rw [insert_newline_split S hwf hv hcx]
    rw [del_char_join_shape _ (S.row.take n) (S.row.drop (n + 1))
      (update_row { S.row_at S.cy with
        size := S.cx, chars := (S.row_at S.cy).chars.take S.cx.toNat })
      (update_row { size := (S.row_at S.cy).size - S.cx, rsize := 0
                    chars := (S.row_at S.cy).chars.drop S.cx.toNat, render := [] }) n
      (by simp only [e1, e2]) hpre (by simp only [hn]) rfl
      (by simp only [e1, e2]; exact (hlen2 _ _).symm)
      (by simp only [update_row_size, update_row_chars, state.row_at, e1, List.length_drop]; omega)]
    rw [join_rows _ _ (S.row.getD n default)
      (by simp only [update_row_size, state.row_at, e1]; omega)
      (by simp only [update_row_chars, state.row_at, e1, List.take_append_drop]) hfr, ← hdec]
    obtain ⟨rows, cols, cx, cy, rx, rowoff, coloff, numrows, row, dirty, msg, qt⟩ := S
    simp only [update_row_size] at *
    congr 1 <;> omega


theorem fresh_row_at (S : state) (hfr : S.fresh) (hnum : S.numrows = S.row.length)
    (i : Int) (h0 : 0 ≤ i) (h1 : i < S.numrows) : update_row (S.row_at i) = S.row_at i :=
  hfr _ (row_at_mem S i h0 (by rw [← hnum]; exact h1))

/-! ## C7 -/

/-- C7. Split and join are inverses: in a valid state whose cursor is on an existing row,
`insert_newline` puts the cursor at the start of the newly created row, and `del_char` run
right after it gives back the state it started from except for the `dirty` counter: the same
`numrows`, the same rows (chars, size, render, rsize) and the same cursor `(cy, cx)`. -/
theorem split_join_inverse (S : state) (hwf : S.wf) (hfr : S.fresh) (hv : Valid S)
    (hlt : S.cy < S.numrows) :
    ((insert_newline S).cy = S.cy + 1 ∧ (insert_newline S).cx = 0)
    ∧ del_char (insert_newline S) = { S with dirty := S.dirty + 3 }
    ∧ (del_char (insert_newline S)).numrows = S.numrows
    ∧ (del_char (insert_newline S)).row = S.row
    ∧ ((del_char (insert_newline S)).cy = S.cy ∧ (del_char (insert_newline S)).cx = S.cx) := by
  have h := del_char_insert_newline S hwf hv (fresh_row_at S hfr hwf.1 S.cy hv.1 hlt) hlt
  refine ⟨?_, h, ?_, ?_, ?_, ?_⟩
  · by_cases hcx : S.cx = 0
    · rw [insert_newline_col0 S hv hcx]; exact ⟨rfl, rfl⟩
    · rw [insert_newline_split S hwf hv hcx]; exact ⟨rfl, rfl⟩
  all_goals rw [h]

theorem eraseIdx_insert {α : Type} (l : List α) (n : Nat) (x : α) (h : n ≤ l.length) :
    (l.take n ++ x :: l.drop n).eraseIdx n = l := by
  have hl : (l.take n).length = n := by rw [List.length_take]; omega
  rw [List.eraseIdx_append_of_length_le (by omega), hl]
  simp

theorem set_getD_self {α : Type} (l : List α) (n : Nat) (d : α) :
    l.set n (l.getD n d) = l := by
  by_cases h : n < l.length
  · rw [List.getD_eq_getElem _ _ h, List.set_eq_take_append_cons_drop, if_pos h,
      List.getElem_cons_drop, List.take_append_drop]
  · rw [List.set_eq_of_length_le (by omega)]

/-- Inserting a byte on a row and deleting it again gives the state back, but for `dirty`. -/
theorem del_char_insert_char_on_row (S : state) (c : Int) (hwf : S.wf) (hv : Valid S)
    (hfr : update_row (S.row_at S.cy) = S.row_at S.cy) (hlt : S.cy < S.numrows) :
    del_char (insert_char S c) = { S with dirty := S.dirty + 2 } := by
  obtain ⟨hcy0, hcy1, hon, hpast⟩ := id hv
  obtain ⟨hcx0, hcx1⟩ := hon hlt
  have hnum := hwf.1
  have hsz := wf_row_at S hwf S.cy hcy0 hlt
  have hlen : S.cy.toNat < S.row.length := by omega
  simp only [state.row_at] at hfr hsz hcx1
  have hat : ∀ x, (S.row.set S.cy.toNat x).getD S.cy.toNat default = x :=
    fun x => getD_set_self _ _ _ _ hlen
  rw [insert_char_on_row S c hv hlt]
  refine (del_char_in_row_of _ ?_ ?_ ?_ ?_ ?_).trans ?_
  · exact hcy0
  · exact hlt
  · simp only [state.row_at, hat, update_row_size, update_row_chars, List.length_append,
      List.length_take, List.length_cons, List.length_drop]
    omega
  · show S.cx + 1 > 0
    omega
  · simp only [state.row_at, hat, update_row_size]
    omega
  have e1 : (S.cx + 1 - 1).toNat = S.cx.toNat := by congr 1; omega
  have e2 : ∀ rs rd, update_row
      { size := (S.row.getD S.cy.toNat default).size + 1 - 1, rsize := rs,
        chars := (S.row.getD S.cy.toNat default).chars, render := rd }
      = S.row.getD S.cy.toNat default := by
    intro rs rd
    rw [← hfr]
    apply update_row_congr
    · simp only [update_row_size]; omega
    · simp only [update_row_chars]
  simp only [state.row_at, hat, update_row_size, update_row_chars, e1,
    eraseIdx_insert _ _ _ (show S.cx.toNat ≤ (S.row.getD S.cy.toNat default).chars.length by omega),
    e2, List.set_set, set_getD_self]
  obtain ⟨rows, cols, cx, cy, rx, rowoff, coloff, numrows, row, dirty, msg, qt⟩ := S
  simp only at *
  congr 1 <;> omega


theorem set_concat_length {α : Type} (l : List α) (x y : α) :
    (l ++ [x]).set l.length y = l ++ [y] := by
  rw [List.set_append_right _ _ (by omega)]
  simp

/-- Inserting a byte past the last row and deleting it again leaves an empty last row. -/
theorem del_char_insert_char_past_end (S : state) (c : Int) (hwf : S.wf) (hv : Valid S)
    (heq : S.cy = S.numrows) :
    del_char (insert_char S c) = { S with
      row := S.row ++ [{ size := 0, rsize := 0, chars := [], render := [] }]
      numrows := S.numrows + 1
      dirty := S.dirty + 3 } := by
  obtain ⟨hcy0, hcy1, hon, hpast⟩ := id hv
  have hcx := hpast heq
  have hnum := hwf.1
  have e0 : S.cy.toNat = S.row.length := by omega
  have hat : ∀ x : erow, (S.row ++ [x]).getD S.row.length default = x :=
    fun x => getD_concat_length _ _ _
  rw [insert_char_past_end S c hwf hv heq]
  refine (del_char_in_row_of _ ?_ ?_ ?_ ?_ ?_).trans ?_
  · exact hcy0
  · show S.cy < S.numrows + 1
    omega
  · simp only [state.row_at, e0, hat]
    rfl
  · show (1 : Int) > 0
    omega
  · simp only [state.row_at, e0, hat]
    exact le_refl _
  have e2 : ∀ rs rd, update_row
      { size := (1 : Int) - 1, rsize := rs, chars := [c].eraseIdx ((1 : Int) - 1).toNat,
        render := rd }
      = { size := 0, rsize := 0, chars := [], render := [] } := by
    intro rs rd
    rw [← update_row_empty]
    apply update_row_congr <;> rfl
  simp only [state.row_at, e0, hat, update_row_size, update_row_chars, e2, set_concat_length]
  obtain ⟨rows, cols, cx, cy, rx, rowoff, coloff, numrows, row, dirty, msg, qt⟩ := S
  simp only at *
  congr 1 <;> omega

/-! ## C8 -/

/-- C8. Insert and delete are an inverse pair: in a valid state, for a byte `c`,
`insert_char c` moves the cursor to `(cy, cx + 1)` and `del_char` run there brings the cursor
back to `(cy, cx)`.  When the cursor was on an existing row the whole state is restored
except for the `dirty` counter, so `numrows` and every row (chars, size, render, rsize) are
as before.  When it was past the last row, the row that `insert_char` appended is left
behind, and it is empty again (no chars, size 0, empty render). -/
theorem insert_delete_inverse (S : state) (c : Int) (hwf : S.wf) (hfr : S.fresh)
    (hv : Valid S) (_hc : is_char c) :
    ((insert_char S c).cy = S.cy ∧ (insert_char S c).cx = S.cx + 1)
    ∧ (S.cy < S.numrows → del_char (insert_char S c) = { S with dirty := S.dirty + 2 })
    ∧ (S.cy = S.numrows →
        del_char (insert_char S c) = { S with
          row := S.row ++ [{ size := 0, rsize := 0, chars := [], render := [] }]
          numrows := S.numrows + 1
          dirty := S.dirty + 3 })
    ∧ ((del_char (insert_char S c)).cy = S.cy ∧ (del_char (insert_char S c)).cx = S.cx)
    ∧ (del_char (insert_char S c)).row_at S.cy
        = (if S.cy < S.numrows then S.row_at S.cy
           else { size := 0, rsize := 0, chars := [], render := [] }) := by
  have h1 : S.cy < S.numrows → del_char (insert_char S c) = { S with dirty := S.dirty + 2 } :=
    fun hlt => del_char_insert_char_on_row S c hwf hv
      (fresh_row_at S hfr hwf.1 S.cy hv.1 hlt) hlt
  have h2 := del_char_insert_char_past_end S c hwf hv
  have hnum := hwf.1
  have hcy0 := hv.1
  refine ⟨?_, h1, h2, ?_, ?_⟩
  · rcases lt_or_eq_of_le hv.2.1 with hlt | heq
    · rw [insert_char_on_row S c hv hlt]; exact ⟨rfl, rfl⟩
    · rw [insert_char_past_end S c hwf hv heq, hv.2.2.2 heq]; exact ⟨rfl, rfl⟩
  · rcases lt_or_eq_of_le hv.2.1 with hlt | heq
    · rw [h1 hlt]; exact ⟨rfl, rfl⟩
    · rw [h2 heq]; exact ⟨rfl, rfl⟩
  · rcases lt_or_eq_of_le hv.2.1 with hlt | heq
    · rw [h1 hlt, if_pos hlt]; rfl
    · rw [h2 heq, if_neg (by omega)]
      have e0 : S.cy.toNat = S.row.length := by omega
      simp only [state.row_at, e0]
      exact getD_concat_length _ _ _


/-! ## The input decoder -/

theorem read_key_escape_table (e : List Int × Int) (he : e ∈ decoding_table)
    (rest : List ReadResult) :
    read_key_escape (e.1.map ReadResult.byte ++ rest) = .key e.2 rest := by
  simp only [decoding_table, List.mem_cons, List.mem_singleton, List.not_mem_nil, or_false] at he
  rcases he with h | h | h | h | h | h | h | h | h | h | h | h | h | h | h <;> subst h <;> rfl

set_option maxHeartbeats 2000000 in
theorem read_key_escape_cases (input : List ReadResult) :
    ∃ k rest, read_key_escape input = .key k rest
      ∧ (∃ n, n ≤ 3 ∧ rest = input.drop n)
      ∧ (k = ESC ∨ ∃ e ∈ decoding_table, k = e.2 ∧ input = e.1.map ReadResult.byte ++ rest) := by
  rcases input with _ | ⟨r0, t0⟩
  · exact ⟨_, _, rfl, ⟨0, by omega, rfl⟩, Or.inl rfl⟩
  rcases r0 with seq0 | _ | _ | _
  rotate_left
  · exact ⟨_, _, rfl, ⟨1, by omega, rfl⟩, Or.inl rfl⟩
  · exact ⟨_, _, rfl, ⟨1, by omega, rfl⟩, Or.inl rfl⟩
  · exact ⟨_, _, rfl, ⟨1, by omega, rfl⟩, Or.inl rfl⟩
  rcases t0 with _ | ⟨r1, t1⟩
  · exact ⟨_, _, rfl, ⟨1, by omega, rfl⟩, Or.inl rfl⟩
  rcases r1 with seq1 | _ | _ | _
  rotate_left
  · exact ⟨_, _, rfl, ⟨2, by omega, rfl⟩, Or.inl rfl⟩
  · exact ⟨_, _, rfl, ⟨2, by omega, rfl⟩, Or.inl rfl⟩
  · exact ⟨_, _, rfl, ⟨2, by omega, rfl⟩, Or.inl rfl⟩
  rcases t1 with _ | ⟨r2, t2⟩
  rotate_left
  rcases r2 with seq2 | _ | _ | _
  all_goals simp only [read_key_escape]
  all_goals split_ifs
  all_goals refine ⟨_, _, rfl, ?_, ?_⟩
  all_goals first
    | exact ⟨2, by omega, rfl⟩
    | exact ⟨3, by omega, rfl⟩
    | skip
  all_goals first
    | exact Or.inl rfl
    | (subst_vars; exact Or.inr ⟨([91, 65], ARROW_UP), by decide, rfl, rfl⟩)
    | (subst_vars; exact Or.inr ⟨([91, 66], ARROW_DOWN), by decide, rfl, rfl⟩)
    | (subst_vars; exact Or.inr ⟨([91, 67], ARROW_RIGHT), by decide, rfl, rfl⟩)
    | (subst_vars; exact Or.inr ⟨([91, 68], ARROW_LEFT), by decide, rfl, rfl⟩)
    | (subst_vars; exact Or.inr ⟨([91, 72], HOME_KEY), by decide, rfl, rfl⟩)
    | (subst_vars; exact Or.inr ⟨([91, 70], END_KEY), by decide, rfl, rfl⟩)
    | (subst_vars; exact Or.inr ⟨([79, 72], HOME_KEY), by decide, rfl, rfl⟩)
    | (subst_vars; exact Or.inr ⟨([79, 70], END_KEY), by decide, rfl, rfl⟩)
    | (subst_vars; exact Or.inr ⟨([91, 49, 126], HOME_KEY), by decide, rfl, rfl⟩)
    | (subst_vars; exact Or.inr ⟨([91, 51, 126], DEL_KEY), by decide, rfl, rfl⟩)
    | (subst_vars; exact Or.inr ⟨([91, 52, 126], END_KEY), by decide, rfl, rfl⟩)
    | (subst_vars; exact Or.inr ⟨([91, 53, 126], PAGE_UP), by decide, rfl, rfl⟩)
    | (subst_vars; exact Or.inr ⟨([91, 54, 126], PAGE_DOWN), by decide, rfl, rfl⟩)
    | (subst_vars; exact Or.inr ⟨([91, 55, 126], HOME_KEY), by decide, rfl, rfl⟩)
    | (subst_vars; exact Or.inr ⟨([91, 56, 126], END_KEY), by decide, rfl, rfl⟩)


theorem read_key_named (input : List ReadResult) (k : Int) (rest : List ReadResult)
    (hch : ∀ r ∈ input, r.in_range)
    (h : read_key input = .key k rest) (hk : named_key k) :
    ∃ pre e, e ∈ decoding_table ∧ k = e.2
      ∧ (∀ r ∈ pre, r = ReadResult.timeout ∨ r = ReadResult.eagain)
      ∧ input = pre ++ .byte ESC :: (e.1.map ReadResult.byte ++ rest) := by
  induction input with
  | nil => simp [read_key] at h
  | cons r t ih =>
    have hch2 : ∀ r ∈ t, r.in_range :=
      fun r hr => hch r (List.mem_cons_of_mem _ hr)
    rcases r with c | _ | _ | _
    · simp only [read_key] at h
      by_cases hc : c = ESC
      · rw [if_pos hc] at h
        obtain ⟨k2, rest2, h2, _, h3⟩ := read_key_escape_cases t
        rw [h2] at h
        injection h with hk2 hrest2
        subst hk2 hrest2 hc
        rcases h3 with h3 | ⟨e, he, hke, hin⟩
        · subst h3
          exact absurd hk (by decide)
        · exact ⟨[], e, he, hke, by simp, by rw [hin]; rfl⟩
      · rw [if_neg hc] at h
        injection h with hk2 _
        subst hk2
        have := hch (.byte c) (List.mem_cons_self _ _)
        simp only [named_key, ReadResult.in_range, is_char, ARROW_LEFT, PAGE_DOWN] at hk this
        omega
    · simp only [read_key] at h
      obtain ⟨pre, e, he, hke, hpre, hin⟩ := ih hch2 h
      refine ⟨.timeout :: pre, e, he, hke, ?_, by rw [hin]; rfl⟩
      intro r hr
      rcases List.mem_cons.1 hr with h | h
      · exact Or.inl h
      · exact hpre r h
    · simp only [read_key] at h
      obtain ⟨pre, e, he, hke, hpre, hin⟩ := ih hch2 h
      refine ⟨.eagain :: pre, e, he, hke, ?_, by rw [hin]; rfl⟩
      intro r hr
      rcases List.mem_cons.1 hr with h | h
      · exact Or.inr h
      · exact hpre r h
    · simp [read_key] at h

/-! ## C9 -/

/-- C9. `read_key` and the decoding table: after `ESC`, each byte sequence of the table
(`ESC [ A/B/C/D` for Up/Down/Right/Left; `ESC [ H`, `ESC O H`, `ESC [ 1 ~`, `ESC [ 7 ~` for
Home; `ESC [ F`, `ESC O F`, `ESC [ 4 ~`, `ESC [ 8 ~` for End; `ESC [ 3 ~` for Delete;
`ESC [ 5 ~` for PageUp; `ESC [ 6 ~` for PageDown) gives its named key and is consumed
exactly; on an input of `char` values a named key is returned only for such a sequence
(after reads that delivered nothing); byte 127 is returned as `BACKSPACE`; and any first
byte other than `ESC` is returned as its own value with that one byte consumed. -/
theorem read_key_decoding :
    (∀ e ∈ decoding_table, ∀ rest,
      read_key (.byte ESC :: (e.1.map ReadResult.byte ++ rest)) = .key e.2 rest)
    ∧ (∀ input k rest, (∀ r ∈ input, r.in_range) →
        read_key input = .key k rest → named_key k →
        ∃ pre e, e ∈ decoding_table ∧ k = e.2
          ∧ (∀ r ∈ pre, r = ReadResult.timeout ∨ r = ReadResult.eagain)
          ∧ input = pre ++ .byte ESC :: (e.1.map ReadResult.byte ++ rest))
    ∧ (∀ rest, read_key (.byte 127 :: rest) = .key BACKSPACE rest)
    ∧ (∀ c rest, c ≠ ESC → read_key (.byte c :: rest) = .key c rest) := by
  refine ⟨?_, read_key_named, ?_, ?_⟩
  · intro e he rest
    simp only [read_key, if_true]
    exact read_key_escape_table e he rest
  · intro rest
    rfl
  · intro c rest hc
    simp only [read_key, if_neg hc]

theorem read_key_decoding_witness :
    ∃ pre e, e ∈ decoding_table ∧ PAGE_UP = e.2
      ∧ (∀ r ∈ pre, r = ReadResult.timeout ∨ r = ReadResult.eagain)
      ∧ [ReadResult.timeout, .byte 27, .byte 91, .byte 53, .byte 126, .byte 97]
          = pre ++ .byte ESC :: (e.1.map ReadResult.byte ++ [.byte 97]) :=
  read_key_decoding.2.1 [.timeout, .byte 27, .byte 91, .byte 53, .byte 126, .byte 97]
    PAGE_UP [.byte 97] (by decide) (by decide) (by decide)

/-! ## C10 -/

/-- C10. The escape fallback is total and bounded: after a first byte `ESC`, whatever the
following reads give, `read_key` returns a key (it neither dies nor blocks), has consumed at
most three further reads, and the key is the bare `ESC` unless the bytes read are a sequence
of the decoding table.  It is `ESC` when the first or the second follow-up read delivers
nothing, when the third read after `ESC [ digit` delivers nothing, and for instance on
`ESC [ 2 ~`, `ESC [ 5 x`, `ESC O A` and `ESC x y`. -/
theorem escape_fallback :
    (∀ input, ∃ k rest, read_key (.byte ESC :: input) = .key k rest
      ∧ (∃ n, n ≤ 3 ∧ rest = input.drop n)
      ∧ (k = ESC ∨ ∃ e ∈ decoding_table, k = e.2 ∧ input = e.1.map ReadResult.byte ++ rest))
    ∧ (read_key [.byte ESC] = .key ESC []
        ∧ ∀ r rest, r.no_byte → read_key (.byte ESC :: r :: rest) = .key ESC rest)
    ∧ (∀ c0, read_key [.byte ESC, .byte c0] = .key ESC []
        ∧ ∀ r rest, r.no_byte → read_key (.byte ESC :: .byte c0 :: r :: rest) = .key ESC rest)
    ∧ (∀ d, 48 ≤ d → d ≤ 57 →
        read_key [.byte ESC, .byte 91, .byte d] = .key ESC []
        ∧ ∀ r rest, r.no_byte →
            read_key (.byte ESC :: .byte 91 :: .byte d :: r :: rest) = .key ESC rest)
    ∧ (∀ rest, read_key (.byte ESC :: .byte 91 :: .byte 50 :: .byte 126 :: rest) = .key ESC rest
        ∧ read_key (.byte ESC :: .byte 91 :: .byte 53 :: .byte 120 :: rest) = .key ESC rest
        ∧ read_key (.byte ESC :: .byte 79 :: .byte 65 :: rest) = .key ESC rest
        ∧ read_key (.byte ESC :: .byte 120 :: .byte 121 :: rest) = .key ESC rest) := by
  refine ⟨?_, ⟨rfl, ?_⟩, ?_, ?_, ?_⟩
  · intro input
    simp only [read_key, if_true]
    exact read_key_escape_cases input
  · intro r rest hr
    cases r <;> first | exact absurd hr id | rfl
  · intro c0
    refine ⟨rfl, ?_⟩
    intro r rest hr
    cases r <;> first | exact absurd hr id | rfl
  · intro d hd1 hd2
    have hd : d ≥ 48 ∧ d ≤ 57 := ⟨hd1, hd2⟩
    refine ⟨?_, ?_⟩
    · simp only [read_key, if_true, read_key_escape, if_pos hd]
    · intro r rest hr
      cases r
      · exact absurd hr id
      all_goals simp only [read_key, if_true, read_key_escape, if_pos hd]
  · intro rest
    exact ⟨rfl, rfl, rfl, rfl⟩

theorem escape_fallback_witness :
    read_key [.byte ESC, .byte 91, .byte 51, .timeout, .byte 126] = .key ESC [.byte 126] :=
  (escape_fallback.2.2.2.1 51 (by decide) (by decide)).2 .timeout [.byte 126] trivial


/-! ## The cursor invariant -/

theorem size_nonneg (S : state) (hwf : S.wf) (i : Int) (h0 : 0 ≤ i) (h1 : i < S.numrows) :
    0 ≤ (S.row.getD i.toNat default).size := by
  have := wf_row_at S hwf i h0 h1
  simp only [state.row_at] at this
  omega

theorem move_cursor_switch_frame (S : state) (key : Int) (hwf : S.wf)
    (hcy0 : 0 ≤ S.cy) (hcy1 : S.cy ≤ S.numrows) (hcx0 : 0 ≤ S.cx) :
    ∃ cx1 cy1, move_cursor_switch S key = { S with cx := cx1, cy := cy1 }
      ∧ 0 ≤ cy1 ∧ cy1 ≤ S.numrows ∧ 0 ≤ cx1 := by
  have hs1 := size_nonneg S hwf (S.cy - 1)
  obtain ⟨rows, cols, cx, cy, rx, rowoff, coloff, numrows, row, dirty, msg, qt⟩ := S
  simp only at *
  simp only [move_cursor_switch, state.row_at]
  split_ifs
  all_goals first
    | exact ⟨_, _, rfl, by omega, by omega, by omega⟩
    | skip
  all_goals simp only []
  all_goals split_ifs
  all_goals exact ⟨_, _, rfl, by omega, by omega, by omega⟩

theorem move_cursor_clamp_valid (S : state) (hwf : S.wf)
    (hcy0 : 0 ≤ S.cy) (hcy1 : S.cy ≤ S.numrows) (hcx0 : 0 ≤ S.cx) :
    ∃ cx1, move_cursor_clamp S = { S with cx := cx1 } ∧ Valid (move_cursor_clamp S) := by
  have hs := size_nonneg S hwf S.cy
  obtain ⟨rows, cols, cx, cy, rx, rowoff, coloff, numrows, row, dirty, msg, qt⟩ := S
  simp only at *
  simp only [move_cursor_clamp, state.row_at, Valid]
  split_ifs with h1 h2 h2
  all_goals simp only [] at h2
  all_goals refine ⟨_, rfl, ?_⟩
  all_goals simp only [state.row_at]
  all_goals refine ⟨hcy0, hcy1, fun h => ⟨by omega, by omega⟩, fun h => by first | trivial | omega⟩

theorem move_cursor_valid (S : state) (key : Int) (hwf : S.wf)
    (hcy0 : 0 ≤ S.cy) (hcy1 : S.cy ≤ S.numrows) (hcx0 : 0 ≤ S.cx) :
    ∃ cx1 cy1, move_cursor S key = { S with cx := cx1, cy := cy1 }
      ∧ Valid (move_cursor S key) := by
  obtain ⟨cx1, cy1, h1, h2, h3, h4⟩ := move_cursor_switch_frame S key hwf hcy0 hcy1 hcx0
  have hwf1 : (move_cursor_switch S key).wf := by rw [h1]; exact hwf
  obtain ⟨cx2, h5, h6⟩ := move_cursor_clamp_valid (move_cursor_switch S key) hwf1
    (by rw [h1]; exact h2) (by rw [h1]; exact h3) (by rw [h1]; exact h4)
  refine ⟨cx2, cy1, ?_, h6⟩
  rw [move_cursor, h5, h1]

theorem valid_cx_nonneg (S : state) (hv : Valid S) : 0 ≤ S.cx := by
  obtain ⟨_, hcy1, hon, hpast⟩ := hv
  rcases lt_or_eq_of_le hcy1 with h | h
  · exact (hon h).1
  · rw [hpast h]

theorem move_cursor_inv (S : state) (key : Int) (hwf : S.wf)
    (hcy0 : 0 ≤ S.cy) (hcy1 : S.cy ≤ S.numrows) (hcx0 : 0 ≤ S.cx)
    (hoff : 0 ≤ S.rowoff) (hrows : 1 ≤ S.rows) :
    Inv (move_cursor S key) ∧ (move_cursor S key).rows = S.rows := by
  obtain ⟨cx1, cy1, h1, h2⟩ := move_cursor_valid S key hwf hcy0 hcy1 hcx0
  refine ⟨⟨?_, h2, ?_, ?_⟩, ?_⟩ <;> rw [h1] <;> assumption

theorem move_cursor_times_inv (key : Int) (n : Nat) (S : state) (hinv : Inv S) :
    Inv (move_cursor_times key n S) := by
  induction n generalizing S with
  | zero => exact hinv
  | succ n ih =>
    obtain ⟨hwf, hv, hoff, hrows⟩ := hinv
    exact ih _ (move_cursor_inv S key hwf hv.1 hv.2.1 (valid_cx_nonneg S hv) hoff hrows).1

theorem valid_of_cx_zero (S : state) (hwf : S.wf) (hcy0 : 0 ≤ S.cy) (hcy1 : S.cy ≤ S.numrows)
    (hcx : S.cx = 0) : Valid S := by
  refine ⟨hcy0, hcy1, fun h => ?_, fun _ => hcx⟩
  have := size_nonneg S hwf S.cy hcy0 h
  simp only [state.row_at]
  omega

theorem all_set {α : Type} (P : α → Prop) (l : List α) (i : Nat) (x : α)
    (hl : ∀ r ∈ l, P r) (hx : P x) : ∀ r ∈ l.set i x, P r := by
  intro r hr
  rcases List.mem_or_eq_of_mem_set hr with h | h
  · exact hl r h
  · rw [h]; exact hx

theorem all_splice {α : Type} (P : α → Prop) (l mid : List α) (i j : Nat)
    (hl : ∀ r ∈ l, P r) (hm : ∀ r ∈ mid, P r) : ∀ r ∈ l.take i ++ (mid ++ l.drop j), P r := by
  intro r hr
  rcases List.mem_append.1 hr with h | h
  · exact hl r (List.mem_of_mem_take h)
  · rcases List.mem_append.1 h with h | h
    · exact hm r h
    · exact hl r (List.mem_of_mem_drop h)

theorem insert_char_inv (S : state) (c : Int) (hinv : Inv S) : Inv (insert_char S c) := by
  obtain ⟨hwf, hv, hoff, hrows⟩ := hinv
  obtain ⟨hcy0, hcy1, hon, hpast⟩ := id hv
  have hnum := hwf.1
  rcases lt_or_eq_of_le hcy1 with hlt | heq
  · obtain ⟨hcx0, hcx1⟩ := hon hlt
    have hsz := wf_row_at S hwf S.cy hcy0 hlt
    have hlen : S.cy.toNat < S.row.length := by omega
    rw [insert_char_on_row S c hv hlt]
    simp only [state.row_at] at hsz hcx1 ⊢
    refine ⟨⟨?_, ?_⟩, ⟨hcy0, hcy1, fun _ => ?_, fun h => ?_⟩, hoff, hrows⟩
    · simp only [List.length_set]; exact hnum
    · apply all_set _ _ _ _ hwf.2
      simp only [update_row_size, update_row_chars, List.length_append, List.length_take,
        List.length_cons, List.length_drop]
      omega
    · simp only [state.row_at, getD_set_self _ _ _ _ hlen, update_row_size]
      omega
    · exact absurd h (by simp only; omega)
  · have hcx := hpast heq
    have e0 : S.cy.toNat = S.row.length := by omega
    rw [insert_char_past_end S c hwf hv heq]
    refine ⟨⟨?_, ?_⟩, ⟨hcy0, ?_, fun _ => ?_, fun h => ?_⟩, hoff, hrows⟩
    · simp only [List.length_append, List.length_singleton, Nat.cast_add, Nat.cast_one]; omega
    · intro r hr
      rcases List.mem_append.1 hr with h | h
      · exact hwf.2 r h
      · rw [List.mem_singleton.1 h]; rfl
    · simp only; omega
    · simp only [state.row_at, e0, getD_concat_length, update_row_size]
      omega
    · exact absurd h (by simp only; omega)

theorem insert_newline_inv (S : state) (hinv : Inv S) : Inv (insert_newline S) := by
  obtain ⟨hwf, hv, hoff, hrows⟩ := hinv
  obtain ⟨hcy0, hcy1, hon, hpast⟩ := id hv
  have hnum := hwf.1
  have key : ∀ T : state, T.row.length = S.row.length + 1 → T.numrows = S.numrows + 1 →
      (∀ r ∈ T.row, r.size = r.chars.length) → T.cy = S.cy + 1 → T.cx = 0 →
      T.rowoff = S.rowoff → T.rows = S.rows → Inv T := by
    intro T h1 h2 h3 h4 h5 h6 h7
    have hwfT : T.wf := ⟨by rw [h1, h2, hnum]; simp, h3⟩
    exact ⟨hwfT, valid_of_cx_zero T hwfT (by omega) (by omega) h5, by omega, by omega⟩
  by_cases hcx : S.cx = 0
  · rw [insert_newline_col0 S hv hcx]
    refine key _ ?_ rfl ?_ rfl rfl rfl rfl
    · simp only [List.length_append, List.length_cons, List.length_take, List.length_drop]
      omega
    · exact all_splice _ S.row [_] _ _ hwf.2 (by intro r hr; rw [List.mem_singleton.1 hr]; rfl)
  · have hlt : S.cy < S.numrows := by
      rcases lt_or_eq_of_le hcy1 with h | h
      · exact h
      · exact absurd (hpast h) hcx
    obtain ⟨hcx0, hcx1⟩ := hon hlt
    have hsz := wf_row_at S hwf S.cy hcy0 hlt
    rw [insert_newline_split S hwf hv hcx]
    refine key _ ?_ rfl ?_ rfl rfl rfl rfl
    · simp only [List.length_append, List.length_cons, List.length_take, List.length_drop]
      omega
    · apply all_splice _ S.row [_, _] _ _ hwf.2
      intro r hr
      simp only [List.mem_cons, List.mem_singleton, List.not_mem_nil, or_false] at hr
      rcases hr with h | h <;> rw [h] <;>
        simp only [update_row_size, update_row_chars, List.length_take, List.length_drop] <;>
        omega

theorem del_char_inv (S : state) (hinv : Inv S) : Inv (del_char S) := by
  obtain ⟨hwf, hv, hoff, hrows⟩ := id hinv
  obtain ⟨hcy0, hcy1, hon, hpast⟩ := id hv
  have hnum := hwf.1
  by_cases hno : S.cy = S.numrows ∨ (S.cx = 0 ∧ S.cy = 0)
  · rw [del_char_noop S hno]; exact hinv
  have hlt : S.cy < S.numrows := by omega
  obtain ⟨hcx0, hcx1⟩ := hon hlt
  have hsz := wf_row_at S hwf S.cy hcy0 hlt
  by_cases hcx : S.cx > 0
  · have hlen : S.cy.toNat < S.row.length := by omega
    rw [del_char_in_row S hwf hv hcx]
    simp only [state.row_at] at hsz hcx1 ⊢
    refine ⟨⟨?_, ?_⟩, ⟨hcy0, hcy1, fun _ => ?_, fun h => ?_⟩, hoff, hrows⟩
    · simp only [List.length_set]; exact hnum
    · apply all_set _ _ _ _ hwf.2
      simp only [update_row_size, update_row_chars]
      rw [List.length_eraseIdx_of_lt (by omega)]
      omega
    · simp only [state.row_at, getD_set_self _ _ _ _ hlen, update_row_size]
      omega
    · exact absurd h (by simp only; omega)
  · have hcx2 : S.cx = 0 := by omega
    have hcy : S.cy > 0 := by omega
    have hszp := wf_row_at S hwf (S.cy - 1) (by omega) (by omega)
    have hpre : (S.row.take (S.cy - 1).toNat).length = (S.cy - 1).toNat := by
      rw [List.length_take]; omega
    rw [del_char_join S hwf hcx2 hcy hlt]
    simp only [state.row_at] at hsz hszp ⊢
    refine ⟨⟨?_, ?_⟩, ⟨?_, ?_, fun _ => ?_, fun h => ?_⟩, hoff, hrows⟩
    · simp only [List.length_append, List.length_cons, List.length_take, List.length_drop]
      omega
    · apply all_splice _ S.row [_] _ _ hwf.2
      intro r hr
      rw [List.mem_singleton.1 hr]
      simp only [update_row_size, update_row_chars, List.length_append]
      omega
    · simp only; omega
    · simp only; omega
    · simp only [state.row_at, getD_insert_here _ _ _ _ _ hpre, update_row_size]
      omega
    · exact absurd h (by simp only; omega)

theorem scroll_inv (S : state) (hinv : Inv S) :
    Inv (scroll S) ∧ (scroll S).rowoff ≤ (scroll S).cy := by
  obtain ⟨hwf, hv, hoff, hrows⟩ := hinv
  refine ⟨⟨hwf, hv, ?_, hrows⟩, ?_⟩
  · simp only [scroll]
    have := hv.1
    split_ifs <;> omega
  · simp only [scroll]
    split_ifs <;> omega

theorem move_cursor_times_inv_pos (key : Int) (n : Nat) (S : state) (hn : 1 ≤ n) (hwf : S.wf)
    (hcy0 : 0 ≤ S.cy) (hcy1 : S.cy ≤ S.numrows) (hcx0 : 0 ≤ S.cx)
    (hoff : 0 ≤ S.rowoff) (hrows : 1 ≤ S.rows) :
    Inv (move_cursor_times key n S) := by
  obtain ⟨m, rfl⟩ : ∃ m, n = m + 1 := ⟨n - 1, by omega⟩
  exact move_cursor_times_inv key m _ (move_cursor_inv S key hwf hcy0 hcy1 hcx0 hoff hrows).1

theorem inv_quit_times (S : state) (q : Int) (hinv : Inv S) :
    Inv { S with quit_times := q } := hinv

theorem process_keypress_inv (io : SaveOutcome) (S : state) (c : Int) (hinv : Inv S)
    (hoff : S.rowoff ≤ S.cy) (hq : c ≠ CTRL_KEY 113) :
    ∃ T, process_keypress io S c = .running T ∧ Inv T := by
  obtain ⟨hwf, hv, hro, hrows⟩ := id hinv
  obtain ⟨hcy0, hcy1, hon, hpast⟩ := id hv
  have hcx0 := valid_cx_nonneg S hv
  rw [process_keypress]
  by_cases h1 : c = CR
  · rw [if_pos h1]
    exact ⟨_, rfl, inv_quit_times _ _ (insert_newline_inv S hinv)⟩
  rw [if_neg h1, if_neg hq]
  by_cases h3 : c = CTRL_KEY 115
  · rw [if_pos h3]
    refine ⟨_, rfl, ?_⟩
    cases io <;> exact hinv
  rw [if_neg h3]
  by_cases h4 : c = PAGE_UP ∨ c = PAGE_DOWN
  · rw [if_pos h4]
    simp only []
    have hn : 1 ≤ S.rows.toNat := by omega
    by_cases h5 : c = PAGE_UP
    · simp only [if_pos h5, if_neg (show ¬ S.rows < 0 by omega)]
      refine ⟨_, rfl, inv_quit_times _ _ ?_⟩
      exact move_cursor_times_inv_pos _ _ _ hn hwf hro (by show S.rowoff ≤ S.numrows; omega)
        hcx0 hro hrows
    · have h6 : c = PAGE_DOWN := by tauto
      simp only [if_neg h5, if_pos h6]
      by_cases h7 : S.rowoff + S.rows - 1 > S.numrows
      · simp only [if_pos h7, if_neg (show ¬ S.rows < 0 by omega)]
        refine ⟨_, rfl, inv_quit_times _ _ ?_⟩
        exact move_cursor_times_inv_pos _ _ _ hn hwf (by show 0 ≤ S.numrows; omega)
          (le_refl _) hcx0 hro hrows
      · simp only [if_neg h7, if_neg (show ¬ S.rows < 0 by omega)]
        refine ⟨_, rfl, inv_quit_times _ _ ?_⟩
        exact move_cursor_times_inv_pos _ _ _ hn hwf (by show 0 ≤ S.rowoff + S.rows - 1; omega)
          (by show S.rowoff + S.rows - 1 ≤ S.numrows; omega) hcx0 hro hrows
  rw [if_neg h4]
  by_cases h8 : c = HOME_KEY
  · rw [if_pos h8]
    exact ⟨_, rfl, hwf, valid_of_cx_zero _ hwf hcy0 hcy1 rfl, hro, hrows⟩
  rw [if_neg h8]
  by_cases h9 : c = END_KEY
  · rw [if_pos h9]
    refine ⟨_, rfl, ?_⟩
    by_cases h10 : S.cy < S.numrows
    · simp only [if_pos h10]
      have := size_nonneg S hwf S.cy hcy0 h10
      refine ⟨hwf, ⟨hcy0, hcy1, fun _ => ⟨?_, le_refl _⟩, fun h => ?_⟩, hro, hrows⟩
      · exact this
      · exact absurd h (by show ¬ S.cy = S.numrows; omega)
    · simp only [if_neg h10]
      exact hinv
  rw [if_neg h9]
  by_cases h11 : c = BACKSPACE ∨ c = CTRL_KEY 104 ∨ c = DEL_KEY
  · rw [if_pos h11]
    refine ⟨_, rfl, inv_quit_times _ _ (del_char_inv _ ?_)⟩
    by_cases h12 : c = DEL_KEY
    · simp only [if_pos h12]
      exact (move_cursor_inv S _ hwf hcy0 hcy1 hcx0 hro hrows).1
    · simp only [if_neg h12]
      exact hinv
  rw [if_neg h11]
  by_cases h13 : c = ARROW_UP ∨ c = ARROW_DOWN ∨ c = ARROW_LEFT ∨ c = ARROW_RIGHT
  · rw [if_pos h13]
    exact ⟨_, rfl, inv_quit_times _ _ (move_cursor_inv S _ hwf hcy0 hcy1 hcx0 hro hrows).1⟩
  rw [if_neg h13]
  by_cases h14 : c = CTRL_KEY 108 ∨ c = ESC
  · rw [if_pos h14]
    exact ⟨_, rfl, hinv⟩
  rw [if_neg h14]
  exact ⟨_, rfl, inv_quit_times _ _ (insert_char_inv S c hinv)⟩

theorem strip_linelen_le (line : List Int) (n : Nat) : strip_linelen line n ≤ n := by
  induction n with
  | zero => exact le_refl _
  | succ n ih =>
    unfold strip_linelen
    split_ifs
    · omega
    · exact le_refl _

theorem insert_row_wf (S : state) (at_ : Int) (s : List Int) (len : Nat) (hwf : S.wf)
    (hlen : len ≤ s.length) :
    (insert_row S at_ s len).wf ∧ (insert_row S at_ s len).cx = S.cx
      ∧ (insert_row S at_ s len).cy = S.cy ∧ (insert_row S at_ s len).rowoff = S.rowoff
      ∧ (insert_row S at_ s len).rows = S.rows := by
  unfold insert_row
  split_ifs with h
  · exact ⟨hwf, rfl, rfl, rfl, rfl⟩
  · refine ⟨⟨?_, ?_⟩, rfl, rfl, rfl, rfl⟩
    · have := hwf.1
      simp only [List.length_append, List.length_cons, List.length_take, List.length_drop]
      omega
    · apply all_splice _ S.row [_] _ _ hwf.2
      intro r hr
      rw [List.mem_singleton.1 hr]
      simp only [update_row_size, update_row_chars, Int.toNat_ofNat, List.length_take]
      omega

theorem editor_open_loop_wf (lines : List (List Int)) (S : state) (hwf : S.wf) :
    let T := lines.foldl
      (fun S line => insert_row S S.numrows line (strip_linelen line line.length)) S
    T.wf ∧ T.cx = S.cx ∧ T.cy = S.cy ∧ T.rowoff = S.rowoff ∧ T.rows = S.rows := by
  induction lines generalizing S with
  | nil => exact ⟨hwf, rfl, rfl, rfl, rfl⟩
  | cons line lines ih =>
    obtain ⟨h1, h2, h3, h4, h5⟩ := insert_row_wf S S.numrows line
      (strip_linelen line line.length) hwf (strip_linelen_le _ _)
    obtain ⟨g1, g2, g3, g4, g5⟩ := ih _ h1
    simp only [List.foldl_cons]
    exact ⟨g1, g2.trans h2, g3.trans h3, g4.trans h4, g5.trans h5⟩

theorem main_start_inv (ws_row ws_col : Int) (file : Option (List Int))
    (hrows : 1 ≤ (main_start ws_row ws_col file).rows) :
    Inv (main_start ws_row ws_col file) := by
  have h0 : (init ws_row ws_col).wf := ⟨rfl, by intro r hr; cases hr⟩
  cases file with
  | none =>
    exact ⟨h0, valid_of_cx_zero _ h0 (le_refl _) (le_refl _) rfl, le_refl _, hrows⟩
  | some bytes =>
    obtain ⟨g1, g2, g3, g4, g5⟩ := editor_open_loop_wf (getlines bytes []) (init ws_row ws_col) h0
    have hwf : (main_start ws_row ws_col (some bytes)).wf := g1
    have hnum : 0 ≤ (main_start ws_row ws_col (some bytes)).numrows := by
      rw [hwf.1]; exact Int.ofNat_nonneg _
    exact ⟨hwf, valid_of_cx_zero _ hwf (by rw [show (main_start ws_row ws_col (some bytes)).cy
      = 0 from g3]) (by rw [show (main_start ws_row ws_col (some bytes)).cy = 0 from g3]; exact hnum)
      g2, by rw [show (main_start ws_row ws_col (some bytes)).rowoff = 0 from g4], hrows⟩

theorem main_loop_inv (evs : List (SaveOutcome × Int)) (S : state) (hinv : Inv S)
    (hkeys : ∀ ev ∈ evs, ev.2 ≠ CTRL_KEY 113) :
    ∃ T, main_loop S evs = .running T ∧ Inv T := by
  induction evs generalizing S with
  | nil => exact ⟨S, rfl, hinv⟩
  | cons ev evs ih =>
    obtain ⟨h1, h2⟩ := scroll_inv S hinv
    obtain ⟨T, hT, hinvT⟩ := process_keypress_inv ev.1 (scroll S) ev.2 h1 h2
      (hkeys ev (List.mem_cons_self _ _))
    obtain ⟨U, hU, hinvU⟩ := ih T hinvT (fun e he => hkeys e (List.mem_cons_of_mem _ he))
    refine ⟨U, ?_, hinvU⟩
    rw [main_loop]
    simp only [main_iteration, refresh_screen, hT]
    exact hU

/-! ## C2 -/

/-- C2. Cursor bounds: with `Valid S` standing for `0 ≤ cy ≤ numrows`, `0 ≤ cx ≤ row[cy].size`
on a row and `cx = 0` past the last row, the state in which `main` enters its loop (after
`init`, and `editor_open` when a file is named) is valid, and if the screen has at least one
text row, then after any number of turns of the loop (`refresh_screen`, which scrolls, then
`process_keypress`) on keys other than the quit key the loop is still running and its
state is valid.  The keys covered are every byte that is inserted, Enter, Backspace, Ctrl-H,
Delete, the arrows, Home, End, PageUp, PageDown, Ctrl-L, Escape, and the save key. -/
theorem cursor_bounds_invariant (ws_row ws_col : Int) (file : Option (List Int))
    (evs : List (SaveOutcome × Int))
    (hrows : 1 ≤ (main_start ws_row ws_col file).rows)
    (hkeys : ∀ ev ∈ evs, ev.2 ≠ CTRL_KEY 113) :
    Valid (main_start ws_row ws_col file)
    ∧ ∃ S, main_loop (main_start ws_row ws_col file) evs = .running S ∧ Valid S := by
  have h0 := main_start_inv ws_row ws_col file hrows
  obtain ⟨T, hT, hinvT⟩ := main_loop_inv evs _ h0 hkeys
  exact ⟨h0.2.1, T, hT, hinvT.2.1⟩



/-! ## Instances of the theorems on sample documents -/

theorem cursor_bounds_invariant_witness :
    1 ≤ (main_start 26 80 (some [97, 98, 10, 9, 99, 13, 10])).rows
    ∧ Valid (main_start 26 80 (some [97, 98, 10, 9, 99, 13, 10]))
    ∧ ∃ S, main_loop (main_start 26 80 (some [97, 98, 10, 9, 99, 13, 10]))
        [(.written, ARROW_DOWN), (.written, END_KEY), (.written, 120), (.written, CR),
         (.written, PAGE_UP), (.written, DEL_KEY), (.written, BACKSPACE), (.failed, 19)]
        = .running S ∧ Valid S :=
  ⟨by decide, cursor_bounds_invariant 26 80 (some [97, 98, 10, 9, 99, 13, 10])
    [(.written, ARROW_DOWN), (.written, END_KEY), (.written, 120), (.written, CR),
     (.written, PAGE_UP), (.written, DEL_KEY), (.written, BACKSPACE), (.failed, 19)]
    (by decide) (by decide)⟩

theorem scroll_visibility_witness :
    (Valid docTab ∧ 1 ≤ docTab.rows ∧ 1 ≤ docTab.cols)
    ∧ (scroll docTab).rx = 8
    ∧ (refresh_screen docTab).2 = (1, 9) :=
  have h := scroll_visibility docTab (by decide) (by decide) (by decide)
  ⟨by decide, (h.2.1 (by decide)).trans (by decide), h.2.2.2.2.2.2.1.trans (by decide)⟩

theorem insert_char_contract_witness :
    (docTab.wf ∧ Valid docTab ∧ is_char_value 9 ∧ dirty_room docTab 2)
    ∧ insert_char docTab 9 = { docTab with
        row := [⟨4, 17, [97, 9, 9, 98],
                  [97, 32, 32, 32, 32, 32, 32, 32, 32, 32, 32, 32, 32, 32, 32, 32, 98]⟩,
                ⟨2, 2, [99, 100], [99, 100]⟩]
        dirty := 1
        cx := 3 } :=
  ⟨by decide, ((insert_char_contract docTab 9 (by decide) (by decide) (by decide)
    (by decide)).1 (by decide)).trans (by decide)⟩

theorem insert_newline_contract_witness :
    (docTab.wf ∧ Valid docTab)
    ∧ insert_newline docTab = { docTab with
        row := [⟨2, 8, [97, 9], [97, 32, 32, 32, 32, 32, 32, 32]⟩, ⟨1, 1, [98], [98]⟩,
                ⟨2, 2, [99, 100], [99, 100]⟩]
        numrows := 3
        dirty := 1
        cy := 1
        cx := 0 } :=
  ⟨by decide, ((insert_newline_contract docTab (by decide) (by decide)).2.1
    (by decide)).trans (by decide)⟩

theorem split_join_inverse_witness :
    (docTab.wf ∧ docTab.fresh ∧ Valid docTab ∧ docTab.cy < docTab.numrows)
    ∧ del_char (insert_newline docTab) = { docTab with dirty := 3 } :=
  ⟨by decide,
    (split_join_inverse docTab (by decide) (by decide) (by decide) (by decide)).2.1⟩

theorem insert_delete_inverse_witness :
    (docTab.wf ∧ docTab.fresh ∧ Valid docTab ∧ is_char 9)
    ∧ del_char (insert_char docTab 9) = { docTab with dirty := 2 } :=
  ⟨by decide,
    (insert_delete_inverse docTab 9 (by decide) (by decide) (by decide) (by decide)).2.1
      (by decide)⟩

/-! ## The reference projection -/

theorem update_row_loop_spec (cs : List Int) (render : List Int) :
    update_row_loop cs render = render ++ render_spec cs render.length := by
  induction cs generalizing render with
  | nil => simp [update_row_loop, render_spec]
  | cons c cs ih =>
    unfold update_row_loop render_spec
    by_cases hc : c = TAB
    · rw [if_pos hc, if_pos hc, ih, update_row_pad_spec 8 _ (by omega)]
      have hlen : (render ++ [SPACE]).length = render.length + 1 := by simp
      have e : 8 - render.length % 8 = (8 - (render.length + 1) % 8) % 8 + 1 := by omega
      have e2 : (render ++ [SPACE] ++ List.replicate ((8 - (render.length + 1) % 8) % 8) SPACE)
          = render ++ List.replicate (8 - render.length % 8) SPACE := by
        rw [e, List.replicate_succ, List.append_assoc]; rfl
      rw [hlen, e2, List.length_append, List.length_replicate, List.append_assoc]
    · rw [if_neg hc, if_neg hc, ih]
      simp

theorem row_cx_to_rx_loop_concat (as bs : List Int) (rx : Int) :
    row_cx_to_rx_loop (as ++ bs) rx = row_cx_to_rx_loop bs (row_cx_to_rx_loop as rx) := by
  induction as generalizing rx with
  | nil => rfl
  | cons c cs ih =>
    simp only [List.cons_append, row_cx_to_rx_loop]
    exact ih _

theorem take_succ_getD (l : List Int) (n : Nat) (h : n < l.length) :
    l.take (n + 1) = l.take n ++ [l.getD n 0] := by
  rw [List.take_succ, List.getElem?_eq_getElem h, List.getD_eq_getElem _ _ h]; rfl

/-! ## C14 -/

/-- C14. Tab expansion: for a row whose `size` is the length of its `chars`, the render that
`update_row` computes is the reference projection `render_spec` of the specification (scan
with a display column `d` from 0, copy a non-tab byte, replace a tab by `8 - d % 8` spaces)
and `rsize` is its length; a tab gives between 1 and 8 spaces, and the byte after a tab
starts at a display column that is a multiple of 8.  The line `"\t"` renders as 8 spaces, and
in `"abcde\t"` the tab at column 5 renders as 3 spaces. -/
theorem tab_expansion (row : erow) (hwf : row.size = row.chars.length) :
    (update_row row).render = render_spec row.chars 0
    ∧ (update_row row).rsize = (render_spec row.chars 0).length
    ∧ (∀ d : Nat, 1 ≤ 8 - d % 8 ∧ 8 - d % 8 ≤ 8)
    ∧ (∀ cx : Nat, cx < row.chars.length → row.chars.getD cx 0 = TAB →
        row_cx_to_rx row ((cx : Int) + 1) % 8 = 0)
    ∧ (update_row { size := 1, rsize := 0, chars := [TAB], render := [] }).render
        = List.replicate 8 SPACE
    ∧ (update_row { size := 6, rsize := 0, chars := [97, 98, 99, 100, 101, TAB], render := [] }).render
        = [97, 98, 99, 100, 101] ++ List.replicate 3 SPACE := by
  have h1 := update_row_render row hwf
  have h2 : update_row_loop row.chars [] = render_spec row.chars 0 := by
    rw [update_row_loop_spec]; rfl
  refine ⟨by rw [h1.1, h2], by rw [h1.2, h2], fun d => by omega, ?_, by decide, by decide⟩
  intro cx hcx htab
  have e : ((cx : Int) + 1).toNat = cx + 1 := by omega
  simp only [row_cx_to_rx, e, take_succ_getD _ _ hcx, htab, row_cx_to_rx_loop_concat,
    row_cx_to_rx_loop, if_true, OHMC_TABSTOP]
  have := row_cx_to_rx_loop_nonneg (row.chars.take cx) 0 (le_refl _)
  omega

theorem tab_expansion_witness :
    (update_row { size := 3, rsize := 0, chars := [97, 9, 98], render := [] }).render
      = render_spec [97, 9, 98] 0 :=
  (tab_expansion { size := 3, rsize := 0, chars := [97, 9, 98], render := [] } (by decide)).1

theorem render_spec_append (as bs : List Int) (d : Nat) :
    render_spec (as ++ bs) d = render_spec as d ++ render_spec bs (d + (render_spec as d).length) := by
  induction as generalizing d with
  | nil => simp [render_spec]
  | cons c cs ih =>
    rw [List.cons_append]
    by_cases hc : c = TAB
    · rw [render_spec, if_pos hc, render_spec, if_pos hc, ih, List.append_assoc,
        List.length_append, List.length_replicate, Nat.add_assoc]
    · rw [render_spec, if_neg hc, render_spec, if_neg hc, ih, List.cons_append,
        List.length_cons]
      have e : d + 1 + (render_spec cs (d + 1)).length
          = d + ((render_spec cs (d + 1)).length + 1) := by omega
      rw [e]

theorem render_spec_length (cs : List Int) :
    ((render_spec cs 0).length : Int) = row_cx_to_rx_loop cs 0 := by
  have h := update_row_loop_length cs []
  rw [update_row_loop_spec] at h
  simpa using h

theorem render_spec_no_tab (cs : List Int) (d : Nat) : TAB ∉ render_spec cs d := by
  induction cs generalizing d with
  | nil => simp [render_spec]
  | cons c cs ih =>
    unfold render_spec
    by_cases hc : c = TAB
    · rw [if_pos hc, List.mem_append]
      rintro (h | h)
      · exact absurd (List.eq_of_mem_replicate h) (by decide)
      · exact ih _ h
    · rw [if_neg hc, List.mem_cons]
      rintro (h | h)
      · exact hc h.symm
      · exact ih _ h

/-! ## C20 -/

/-- C20. The display column points at the cursor's character: for a row rendered by
`update_row` and a column `0 ≤ cx < size` holding the byte `c`, `row_cx_to_rx row cx` is an
index into the render (it is below `rsize`) and is below `row_cx_to_rx row (cx + 1)`; if `c`
is not a tab the render holds `c` at that index; if `c` is a tab, the render holds a space
at every index from `row_cx_to_rx row cx` up to, not including, `row_cx_to_rx row (cx + 1)`;
and the render holds no tab. -/
theorem display_column_points (row : erow) (cx : Int) (c : Int)
    (hwf : row.size = row.chars.length) (h0 : 0 ≤ cx) (h1 : cx < row.size)
    (hc : row.chars[cx.toNat]? = some c) :
    (0 ≤ row_cx_to_rx row cx ∧ row_cx_to_rx row cx < (update_row row).rsize)
    ∧ row_cx_to_rx row cx < row_cx_to_rx row (cx + 1)
    ∧ (c ≠ TAB → (update_row row).render[(row_cx_to_rx row cx).toNat]? = some c)
    ∧ (c = TAB → ∀ i : Nat, row_cx_to_rx row cx ≤ i → (i : Int) < row_cx_to_rx row (cx + 1) →
        (update_row row).render[i]? = some SPACE)
    ∧ TAB ∉ (update_row row).render := by
  obtain ⟨n, rfl⟩ : ∃ n : Nat, cx = n := ⟨cx.toNat, by omega⟩
  have hn : n < row.chars.length := by omega
  have e0 : (n : Int).toNat = n := by omega
  have e1 : ((n : Int) + 1).toNat = n + 1 := by omega
  rw [e0] at hc
  have hcn : row.chars[n] = c := by
    rw [List.getElem?_eq_getElem hn] at hc
    exact Option.some.inj hc
  have hsplit : row.chars = row.chars.take n ++ c :: row.chars.drop (n + 1) := by
    rw [← hcn, List.getElem_cons_drop, List.take_append_drop]
  have htk : row.chars.take (n + 1) = row.chars.take n ++ [c] := by
    rw [List.take_succ, List.getElem?_eq_getElem hn, hcn]; rfl
  have hr : (update_row row).render = render_spec row.chars 0 := by
    rw [(update_row_render row hwf).1, update_row_loop_spec]; rfl
  have hrs : (update_row row).rsize = (render_spec row.chars 0).length := by
    rw [(update_row_render row hwf).2, update_row_loop_spec]; rfl
  have hrx : row_cx_to_rx row n = ((render_spec (row.chars.take n) 0).length : Int) := by
    rw [render_spec_length, row_cx_to_rx, e0]
  have hrx1 : row_cx_to_rx row ((n : Int) + 1)
      = ((render_spec (row.chars.take n ++ [c]) 0).length : Int) := by
    rw [render_spec_length, row_cx_to_rx, e1, htk]
  have hfull : render_spec row.chars 0 = render_spec (row.chars.take n) 0
      ++ render_spec (c :: row.chars.drop (n + 1)) (render_spec (row.chars.take n) 0).length := by
    conv_lhs => rw [hsplit]
    rw [render_spec_append, Nat.zero_add]
  have hone : render_spec (row.chars.take n ++ [c]) 0 = render_spec (row.chars.take n) 0
      ++ render_spec [c] (render_spec (row.chars.take n) 0).length := by
    rw [render_spec_append, Nat.zero_add]
  have hnt : TAB ∉ (update_row row).render := by rw [hr]; exact render_spec_no_tab _ _
  suffices h : (0 ≤ row_cx_to_rx row n ∧ row_cx_to_rx row n < (update_row row).rsize)
      ∧ row_cx_to_rx row n < row_cx_to_rx row ((n : Int) + 1)
      ∧ (c ≠ TAB → (update_row row).render[(row_cx_to_rx row n).toNat]? = some c)
      ∧ (c = TAB → ∀ i : Nat, row_cx_to_rx row n ≤ i →
          (i : Int) < row_cx_to_rx row ((n : Int) + 1) →
          (update_row row).render[i]? = some SPACE) from ⟨h.1, h.2.1, h.2.2.1, h.2.2.2, hnt⟩
  rw [hr, hrs, hrx, hrx1, hfull, hone]
  generalize render_spec (row.chars.take n) 0 = A
  by_cases ht : c = TAB
  · subst ht
    simp only [render_spec, if_true, List.append_nil, List.length_append, List.length_replicate,
      Nat.cast_add]
    refine ⟨⟨by omega, by omega⟩, by omega, fun h => absurd rfl h, fun _ i hi1 hi2 => ?_⟩
    have hi : A.length ≤ i := by omega
    rw [List.getElem?_append_right hi, List.getElem?_append_left
      (by rw [List.length_replicate]; omega), List.getElem?_replicate, if_pos (by omega)]
  · simp only [render_spec, if_neg ht, List.length_append, List.length_cons, List.length_nil,
      Nat.cast_add, Int.toNat_ofNat]
    refine ⟨⟨by omega, by omega⟩, by omega, fun _ => ?_, fun h => absurd h ht⟩
    rw [List.getElem?_append_right (le_refl _), Nat.sub_self]
    exact List.getElem?_cons_zero

theorem display_column_points_witness :
    (update_row { size := 3, rsize := 0, chars := [97, 9, 98], render := [] }).render[
        (row_cx_to_rx { size := 3, rsize := 0, chars := [97, 9, 98], render := [] } 2).toNat]?
      = some 98 :=
  (display_column_points { size := 3, rsize := 0, chars := [97, 9, 98], render := [] } 2 98
    (by decide) (by decide) (by decide) (by decide)).2.2.1 (by decide)

/-! ## Cursor movement -/

theorem move_cursor_down (S : state) (hwf : S.wf)
    (hcy0 : 0 ≤ S.cy) (hcy1 : S.cy ≤ S.numrows) (hcx0 : 0 ≤ S.cx) :
    move_cursor S ARROW_DOWN = { S with
      cy := min (S.cy + 1) S.numrows
      cx := min S.cx (row_len S (min (S.cy + 1) S.numrows)) } := by
  have hs3 := size_nonneg S hwf (S.cy + 1)
  obtain ⟨rows, cols, cx, cy, rx, rowoff, coloff, numrows, row, dirty, msg, qt⟩ := S
  simp only at *
  simp only [move_cursor, move_cursor_switch, move_cursor_clamp, state.row_at, row_len,
    ARROW_DOWN, ARROW_LEFT, ARROW_RIGHT, ARROW_UP]
  simp only [show ¬ ((1003 : Int) = 1000) by decide, show ¬ ((1003 : Int) = 1001) by decide,
    show ¬ ((1003 : Int) = 1002) by decide, if_false, if_true]
  by_cases h : cy < numrows
  · have e : min (cy + 1) numrows = cy + 1 := by omega
    simp only [if_pos h, e]
    split_ifs
    all_goals (try simp only [] at *)
    all_goals first | rfl | (congr 1; omega)
  · have e : min (cy + 1) numrows = numrows := by omega
    have e2 : cy = numrows := by omega
    subst e2
    simp only [if_neg h, e, ge_iff_le, le_refl, if_true]
    split_ifs
    all_goals (try simp only [] at *)
    all_goals first | rfl | (congr 1; omega)

theorem move_cursor_up (S : state) (hwf : S.wf)
    (hcy0 : 0 ≤ S.cy) (hcy1 : S.cy ≤ S.numrows) (hcx0 : 0 ≤ S.cx) :
    move_cursor S ARROW_UP = { S with
      cy := max (S.cy - 1) 0
      cx := min S.cx (row_len S (max (S.cy - 1) 0)) } := by
  have hs1 := size_nonneg S hwf (S.cy - 1)
  have hs2 := size_nonneg S hwf S.cy
  obtain ⟨rows, cols, cx, cy, rx, rowoff, coloff, numrows, row, dirty, msg, qt⟩ := S
  simp only at *
  simp only [move_cursor, move_cursor_switch, move_cursor_clamp, state.row_at, row_len,
    ARROW_DOWN, ARROW_LEFT, ARROW_RIGHT, ARROW_UP]
  simp only [show ¬ ((1002 : Int) = 1000) by decide, show ¬ ((1002 : Int) = 1001) by decide,
    if_false, if_true]
  by_cases h : cy ≠ 0
  · have e : max (cy - 1) 0 = cy - 1 := by omega
    simp only [if_pos h, e]
    split_ifs
    all_goals (try simp only [] at *)
    all_goals first | rfl | (congr 1; omega)
  · have e2 : cy = 0 := by omega
    subst e2
    have e : max ((0 : Int) - 1) 0 = 0 := by omega
    simp only [if_neg h, e]
    split_ifs
    all_goals (try simp only [] at *)
    all_goals first | rfl | (congr 1; omega)

theorem move_cursor_left (S : state) (hwf : S.wf) (hv : Valid S) :
    move_cursor S ARROW_LEFT =
      if S.cx > 0 then { S with cx := S.cx - 1 }
      else if S.cy > 0 then { S with cy := S.cy - 1, cx := (S.row_at (S.cy - 1)).size }
      else S := by
  have hs1 := size_nonneg S hwf (S.cy - 1)
  have hs2 := size_nonneg S hwf S.cy
  obtain ⟨hcy0, hcy1, hon, hpast⟩ := hv
  obtain ⟨rows, cols, cx, cy, rx, rowoff, coloff, numrows, row, dirty, msg, qt⟩ := S
  simp only [state.row_at] at *
  simp only [move_cursor, move_cursor_switch, move_cursor_clamp, state.row_at, if_true]
  split_ifs
  all_goals (try simp only [] at *)
  all_goals first | rfl | (congr 1 <;> omega)

theorem move_cursor_right (S : state) (hwf : S.wf) (hv : Valid S) :
    move_cursor S ARROW_RIGHT =
      if S.cy < S.numrows then
        if S.cx < (S.row_at S.cy).size then { S with cx := S.cx + 1 }
        else { S with cy := S.cy + 1, cx := 0 }
      else S := by
  have hs2 := size_nonneg S hwf S.cy
  have hs3 := size_nonneg S hwf (S.cy + 1)
  obtain ⟨hcy0, hcy1, hon, hpast⟩ := hv
  obtain ⟨rows, cols, cx, cy, rx, rowoff, coloff, numrows, row, dirty, msg, qt⟩ := S
  simp only [state.row_at] at *
  simp only [move_cursor, move_cursor_switch, move_cursor_clamp, state.row_at,
    ARROW_LEFT, ARROW_RIGHT]
  simp only [show ¬ ((1001 : Int) = 1000) by decide, if_false, if_true]
  by_cases h : cy ≥ numrows
  · simp only [if_pos h, if_neg (show ¬ cy < numrows by omega)]
    split_ifs
    all_goals (try simp only [] at *)
    all_goals first | rfl | (congr 1; omega)
  · simp only [if_neg h, if_pos (show cy < numrows by omega)]
    split_ifs
    all_goals (try simp only [] at *)
    all_goals first | rfl | (congr 1 <;> omega)

/-! ## C15 -/

/-- C15. `move_cursor` on a valid state.  Left: `(cy, cx - 1)` if `cx > 0`, the end of row
`cy - 1` if `cx = 0` and `cy > 0`, no change at `(0, 0)`.  Right: `(cy, cx + 1)` on a row
with `cx` below its length, `(cy + 1, 0)` at the end of a row, no change past the last row.
Up: row `cy - 1` if `cy > 0`; Down: row `cy + 1` if `cy < numrows`; for both the column
becomes the minimum of the old `cx` and the length of the destination row (`row_len`, which
is 0 past the last row), and nothing changes when the row cannot change.  No key changes
the rows, `numrows` or the `dirty` counter. -/
theorem move_cursor_spec (S : state) (hwf : S.wf) (hv : Valid S) :
    (move_cursor S ARROW_LEFT =
      if S.cx > 0 then { S with cx := S.cx - 1 }
      else if S.cy > 0 then { S with cy := S.cy - 1, cx := (S.row_at (S.cy - 1)).size }
      else S)
    ∧ (move_cursor S ARROW_RIGHT =
      if S.cy < S.numrows then
        if S.cx < (S.row_at S.cy).size then { S with cx := S.cx + 1 }
        else { S with cy := S.cy + 1, cx := 0 }
      else S)
    ∧ (move_cursor S ARROW_UP =
      if S.cy > 0 then { S with cy := S.cy - 1, cx := min S.cx (row_len S (S.cy - 1)) }
      else S)
    ∧ (move_cursor S ARROW_DOWN =
      if S.cy < S.numrows then { S with cy := S.cy + 1, cx := min S.cx (row_len S (S.cy + 1)) }
      else S)
    ∧ (∀ key, (move_cursor S key).row = S.row ∧ (move_cursor S key).numrows = S.numrows
        ∧ (move_cursor S key).dirty = S.dirty) := by
  have hcx0 := valid_cx_nonneg S hv
  obtain ⟨hcy0, hcy1, hon, hpast⟩ := id hv
  have hlen : S.cx ≤ row_len S S.cy := by
    unfold row_len
    split_ifs with h
    · have := hpast (by omega); omega
    · exact (hon (by omega)).2
  refine ⟨move_cursor_left S hwf hv, move_cursor_right S hwf hv, ?_, ?_, ?_⟩
  · rw [move_cursor_up S hwf hcy0 hcy1 hcx0]
    by_cases h : S.cy > 0
    · rw [if_pos h, show max (S.cy - 1) 0 = S.cy - 1 by omega]
    · have e : S.cy = 0 := by omega
      rw [if_neg h, show max (S.cy - 1) 0 = S.cy by omega, min_eq_left hlen]
  · rw [move_cursor_down S hwf hcy0 hcy1 hcx0]
    by_cases h : S.cy < S.numrows
    · rw [if_pos h, show min (S.cy + 1) S.numrows = S.cy + 1 by omega]
    · have e : S.cy = S.numrows := by omega
      rw [if_neg h, show min (S.cy + 1) S.numrows = S.cy by omega, min_eq_left hlen]
  · intro key
    obtain ⟨cx1, cy1, h, _⟩ := move_cursor_valid S key hwf hcy0 hcy1 hcx0
    rw [h]
    exact ⟨rfl, rfl, rfl⟩

theorem move_cursor_spec_witness :
    (docTab.wf ∧ Valid docTab)
    ∧ move_cursor docTab ARROW_DOWN = { docTab with cy := 1, cx := 2 } :=
  ⟨by decide, (move_cursor_spec docTab (by decide) (by decide)).2.2.2.1.trans (by decide)⟩

theorem row_len_nonneg (S : state) (hwf : S.wf) (i : Int) (h0 : 0 ≤ i) : 0 ≤ row_len S i := by
  unfold row_len
  split_ifs with h
  · exact le_refl _
  · exact size_nonneg S hwf i h0 (by omega)

theorem page_down_rows_succ (cy numrows : Int) (n : Nat) :
    page_down_rows cy numrows (n + 1)
      = min (cy + 1) numrows :: page_down_rows (min (cy + 1) numrows) numrows n := by
  simp only [page_down_rows, List.range_succ_eq_map, List.map_cons, List.map_map]
  refine congrArg₂ _ (by simp) (List.map_congr_left fun i _ => ?_)
  simp only [Function.comp, Nat.cast_succ]
  omega

theorem page_up_rows_succ (cy : Int) (n : Nat) :
    page_up_rows cy (n + 1) = max (cy - 1) 0 :: page_up_rows (max (cy - 1) 0) n := by
  simp only [page_up_rows, List.range_succ_eq_map, List.map_cons, List.map_map]
  refine congrArg₂ _ (by simp) (List.map_congr_left fun i _ => ?_)
  simp only [Function.comp, Nat.cast_succ]
  omega

theorem move_cursor_times_down (n : Nat) (S : state) (hwf : S.wf)
    (hcy0 : 0 ≤ S.cy) (hcy1 : S.cy ≤ S.numrows) (hcx0 : 0 ≤ S.cx) :
    move_cursor_times ARROW_DOWN n S = { S with
      cy := min (S.cy + n) S.numrows
      cx := walk_column S S.cx (page_down_rows S.cy S.numrows n) } := by
  induction n generalizing S with
  | zero =>
    obtain ⟨rows, cols, cx, cy, rx, rowoff, coloff, numrows, row, dirty, msg, qt⟩ := S
    simp only at *
    simp only [move_cursor_times, walk_column, page_down_rows, List.range_zero, List.map_nil,
      List.foldl_nil, Nat.cast_zero, add_zero]
    congr 1
    omega
  | succ n ih =>
    have h1 := move_cursor_down S hwf hcy0 hcy1 hcx0
    have hl := row_len_nonneg S hwf (min (S.cy + 1) S.numrows) (by omega)
    rw [move_cursor_times, h1]
    refine (ih _ ?_ ?_ ?_ ?_).trans ?_
    · exact hwf
    · show 0 ≤ min (S.cy + 1) S.numrows; omega
    · show min (S.cy + 1) S.numrows ≤ S.numrows; omega
    · show 0 ≤ min S.cx (row_len S (min (S.cy + 1) S.numrows)); omega
    simp only [page_down_rows_succ, walk_column, List.map_cons, List.foldl_cons]
    congr 1
    push_cast
    omega

theorem move_cursor_times_up (n : Nat) (S : state) (hwf : S.wf)
    (hcy0 : 0 ≤ S.cy) (hcy1 : S.cy ≤ S.numrows) (hcx0 : 0 ≤ S.cx) :
    move_cursor_times ARROW_UP n S = { S with
      cy := max (S.cy - n) 0
      cx := walk_column S S.cx (page_up_rows S.cy n) } := by
  induction n generalizing S with
  | zero =>
    obtain ⟨rows, cols, cx, cy, rx, rowoff, coloff, numrows, row, dirty, msg, qt⟩ := S
    simp only at *
    simp only [move_cursor_times, walk_column, page_up_rows, List.range_zero, List.map_nil,
      List.foldl_nil, Nat.cast_zero, sub_zero]
    congr 1
    omega
  | succ n ih =>
    have h1 := move_cursor_up S hwf hcy0 hcy1 hcx0
    have hl := row_len_nonneg S hwf (max (S.cy - 1) 0) (by omega)
    rw [move_cursor_times, h1]
    refine (ih _ ?_ ?_ ?_ ?_).trans ?_
    · exact hwf
    · show 0 ≤ max (S.cy - 1) 0; omega
    · show max (S.cy - 1) 0 ≤ S.numrows; omega
    · show 0 ≤ min S.cx (row_len S (max (S.cy - 1) 0)); omega
    simp only [page_up_rows_succ, walk_column, List.map_cons, List.foldl_cons]
    congr 1
    push_cast
    omega

/-! ## C16 -/

/-- C16. PageUp and PageDown clamp the column step by step.  In a valid state as `scroll`
leaves it (`0 ≤ rowoff ≤ cy < rowoff + rows`, `rows ≥ 1`), PageDown puts the cursor on row
`min (rowoff + rows - 1) numrows`, PageUp on row `rowoff`, and then runs the Down (Up) move
of `move_cursor` exactly `rows` times.  The final row is `min (rowoff + 2 * rows - 1) numrows`
(`max (rowoff - rows) 0`), and the final column is the minimum of the old `cx` and the
lengths of all rows the cursor lands on during the walk (0 past the last row).  On
`docRagged` this gives column 0 where a single clamp on the final row would give 5. -/
theorem page_keys_stepwise (io : SaveOutcome) (S : state) (hwf : S.wf) (hv : Valid S)
    (hoff0 : 0 ≤ S.rowoff) (hoff1 : S.rowoff ≤ S.cy) (_hoff2 : S.cy < S.rowoff + S.rows)
    (hrows : 1 ≤ S.rows) :
    (process_keypress io S PAGE_DOWN = .running
      { move_cursor_times ARROW_DOWN S.rows.toNat
          { S with cy := min (S.rowoff + S.rows - 1) S.numrows }
        with quit_times := OHMC_QUIT_TIMES }
      ∧ process_keypress io S PAGE_DOWN = .running { S with
          cy := min (S.rowoff + 2 * S.rows - 1) S.numrows
          cx := walk_column S S.cx
            (page_down_rows (min (S.rowoff + S.rows - 1) S.numrows) S.numrows S.rows.toNat)
          quit_times := OHMC_QUIT_TIMES })
    ∧ (process_keypress io S PAGE_UP = .running
      { move_cursor_times ARROW_UP S.rows.toNat { S with cy := S.rowoff }
        with quit_times := OHMC_QUIT_TIMES }
      ∧ process_keypress io S PAGE_UP = .running { S with
          cy := max (S.rowoff - S.rows) 0
          cx := walk_column S S.cx (page_up_rows S.rowoff S.rows.toNat)
          quit_times := OHMC_QUIT_TIMES })
    ∧ (process_keypress .written docRagged PAGE_DOWN
          = .running { docRagged with cy := 3, cx := 0 }
        ∧ min docRagged.cx (row_len docRagged 3) = 5) := by
  have hcx0 := valid_cx_nonneg S hv
  have hcy0 := hv.1
  have hcy1 := hv.2.1
  have hnr : ¬ S.rows < 0 := by omega
  have hd : process_keypress io S PAGE_DOWN = .running
      { move_cursor_times ARROW_DOWN S.rows.toNat
          { S with cy := min (S.rowoff + S.rows - 1) S.numrows }
        with quit_times := OHMC_QUIT_TIMES } := by
    rw [process_keypress]
    simp only [show ¬ (PAGE_DOWN = CR) by decide, show ¬ (PAGE_DOWN = CTRL_KEY 113) by decide,
      show ¬ (PAGE_DOWN = CTRL_KEY 115) by decide, show ¬ (PAGE_DOWN = PAGE_UP) by decide,
      if_false, or_true, if_true]
    by_cases h : S.rowoff + S.rows - 1 > S.numrows
    · simp only [if_pos h, if_neg hnr, show min (S.rowoff + S.rows - 1) S.numrows = S.numrows
        by omega]
    · simp only [if_neg h, if_neg hnr, show min (S.rowoff + S.rows - 1) S.numrows
        = S.rowoff + S.rows - 1 by omega]
  have hu : process_keypress io S PAGE_UP = .running
      { move_cursor_times ARROW_UP S.rows.toNat { S with cy := S.rowoff }
        with quit_times := OHMC_QUIT_TIMES } := by
    rw [process_keypress]
    simp only [show ¬ (PAGE_UP = CR) by decide, show ¬ (PAGE_UP = CTRL_KEY 113) by decide,
      show ¬ (PAGE_UP = CTRL_KEY 115) by decide, if_false, true_or, if_true, if_neg hnr]
  have hwd := move_cursor_times_down S.rows.toNat
    { S with cy := min (S.rowoff + S.rows - 1) S.numrows } hwf
    (by show 0 ≤ min (S.rowoff + S.rows - 1) S.numrows; omega)
    (by show min (S.rowoff + S.rows - 1) S.numrows ≤ S.numrows; omega) hcx0
  have hwu := move_cursor_times_up S.rows.toNat { S with cy := S.rowoff } hwf hoff0
    (by show S.rowoff ≤ S.numrows; omega) hcx0
  have hn : ((S.rows.toNat : Nat) : Int) = S.rows := by omega
  refine ⟨⟨hd, ?_⟩, ⟨hu, ?_⟩, by decide, by decide⟩
  · rw [hd, hwd]
    simp only [walk_column, row_len, state.row_at, hn]
    congr 2
    omega
  · rw [hu, hwu]
    simp only [hn]
    rfl

theorem page_keys_stepwise_witness :
    (docRagged.wf ∧ Valid docRagged ∧ 0 ≤ docRagged.rowoff ∧ docRagged.rowoff ≤ docRagged.cy
      ∧ docRagged.cy < docRagged.rowoff + docRagged.rows ∧ 1 ≤ docRagged.rows)
    ∧ process_keypress .written docRagged PAGE_UP = .running { docRagged with cx := 5 } :=
  ⟨by decide, (page_keys_stepwise .written docRagged (by decide) (by decide) (by decide)
    (by decide) (by decide) (by decide)).2.1.2.trans (by decide)⟩

/-! ## Freshness of the renders -/

theorem fresh_set (l : List erow) (i : Nat) (r : erow) (hl : ∀ x ∈ l, update_row x = x) :
    ∀ x ∈ l.set i (update_row r), update_row x = x :=
  all_set _ l i _ hl (update_row_idem r)

theorem insert_row_fresh (S : state) (at_ : Int) (s : List Int) (len : Int) (hfr : S.fresh) :
    (insert_row S at_ s len).fresh := by
  unfold insert_row
  split_ifs
  · exact hfr
  · exact all_splice _ S.row [_] _ _ hfr
      (by intro r hr; rw [List.mem_singleton.1 hr]; exact update_row_idem _)

theorem del_row_fresh (S : state) (at_ : Int) (hfr : S.fresh) : (del_row S at_).fresh := by
  unfold del_row
  split_ifs
  · exact hfr
  · exact all_splice _ S.row [] _ _ hfr (by intro r hr; cases hr)

theorem row_insert_char_fresh (S : state) (r : Nat) (at_ c : Int) (hfr : S.fresh) :
    (row_insert_char S r at_ c).fresh :=
  fresh_set _ _ _ hfr

theorem row_append_string_fresh (S : state) (r : Nat) (s : List Int) (len : Int)
    (hfr : S.fresh) : (row_append_string S r s len).fresh :=
  fresh_set _ _ _ hfr

theorem row_del_char_fresh (S : state) (r : Nat) (at_ : Int) (hfr : S.fresh) :
    (row_del_char S r at_).fresh := by
  unfold row_del_char
  simp only
  split_ifs
  · exact hfr
  · exact fresh_set _ _ _ hfr

theorem insert_char_fresh (S : state) (c : Int) (hfr : S.fresh) : (insert_char S c).fresh := by
  unfold insert_char
  simp only
  split_ifs
  · exact row_insert_char_fresh _ _ _ _ (insert_row_fresh _ _ _ _ hfr)
  · exact row_insert_char_fresh _ _ _ _ hfr

theorem insert_newline_fresh (S : state) (hfr : S.fresh) : (insert_newline S).fresh := by
  unfold insert_newline
  simp only
  split_ifs
  · exact insert_row_fresh _ _ _ _ hfr
  · exact fresh_set _ _ _ (insert_row_fresh _ _ _ _ hfr)

theorem del_char_fresh (S : state) (hfr : S.fresh) : (del_char S).fresh := by
  unfold del_char
  simp only
  split_ifs
  · exact hfr
  · exact hfr
  · exact row_del_char_fresh _ _ _ hfr
  · exact del_row_fresh _ _ (row_append_string_fresh _ _ _ _ hfr)

theorem fresh_iff_render_spec (r : erow) :
    update_row r = r ↔
      (r.render = render_spec (r.chars.take r.size.toNat) 0 ∧ r.rsize = r.render.length) := by
  have e : update_row_loop (r.chars.take r.size.toNat) []
      = render_spec (r.chars.take r.size.toNat) 0 := by
    rw [update_row_loop_spec]; rfl
  obtain ⟨size, rsize, chars, render⟩ := r
  simp only [update_row, erow.mk.injEq, true_and] at e ⊢
  rw [e]
  constructor
  · rintro ⟨h1, h2⟩
    exact ⟨h2.symm, by rw [← h1, h2]⟩
  · rintro ⟨h1, h2⟩
    exact ⟨by rw [h2, h1], h1.symm⟩

/-! ## C17 -/

/-- C17. No stale render.  `S.fresh` says that every row's `render` is the tab expansion of
the first `size` bytes of its `chars` and that `rsize` is the length of that render.  It
holds for the empty document that `init` sets up, and from a valid state in which it holds
it holds again after `insert_row`, `del_row`, `row_insert_char`, `row_append_string`,
`row_del_char` on a row and index in range, `insert_char`, `insert_newline` (a split
included) and `del_char`. -/
theorem no_stale_render (S : state) (_hwf : S.wf) (_hv : Valid S) (hfr : S.fresh) :
    (S.fresh ↔ ∀ r ∈ S.row,
      r.render = render_spec (r.chars.take r.size.toNat) 0 ∧ r.rsize = r.render.length)
    ∧ (∀ ws_row ws_col, (init ws_row ws_col).fresh)
    ∧ (∀ at_ s len, (insert_row S at_ s len).fresh)
    ∧ (∀ at_, (del_row S at_).fresh)
    ∧ (∀ r at_ c, r < S.row.length → (row_insert_char S r at_ c).fresh)
    ∧ (∀ r s len, r < S.row.length → (row_append_string S r s len).fresh)
    ∧ (∀ r at_, r < S.row.length → 0 ≤ at_ → at_ < (S.row.getD r default).size →
        (row_del_char S r at_).fresh)
    ∧ (∀ c, (insert_char S c).fresh)
    ∧ (insert_newline S).fresh
    ∧ (del_char S).fresh := by
  refine ⟨?_, ?_, fun at_ s len => insert_row_fresh S at_ s len hfr,
    fun at_ => del_row_fresh S at_ hfr,
    fun r at_ c _ => row_insert_char_fresh S r at_ c hfr,
    fun r s len _ => row_append_string_fresh S r s len hfr,
    fun r at_ _ _ _ => row_del_char_fresh S r at_ hfr,
    fun c => insert_char_fresh S c hfr, insert_newline_fresh S hfr, del_char_fresh S hfr⟩
  · exact forall_congr' fun r => imp_congr_right fun _ => fresh_iff_render_spec r
  · intro ws_row ws_col r hr
    cases hr

theorem no_stale_render_witness :
    (docTab.wf ∧ Valid docTab ∧ docTab.fresh) ∧ (insert_newline docTab).fresh :=
  ⟨by decide, (no_stale_render docTab (by decide) (by decide) (by decide)).2.2.2.2.2.2.2.2.1⟩

/-! ## C13 -/

/-- C13, as stated, fails: joining two rows with `del_char` and typing past the last row
both change the document and add 2 to `dirty`, not 1.  Both states have the counter at 0, far
from `INT_MAX`. -/
theorem dirty_accounting_counterexample :
    (docABC.wf ∧ Valid docABC ∧ dirty_room docABC 2 ∧ (del_char docABC).row ≠ docABC.row
      ∧ (del_char docABC).dirty = docABC.dirty + 2)
    ∧ (docEnd.wf ∧ Valid docEnd ∧ dirty_room docEnd 2 ∧ (insert_char docEnd 120).row ≠ docEnd.row
      ∧ (insert_char docEnd 120).dirty = docEnd.dirty + 2) := by
  decide

/-- C13, amended.  `dirty` counts the Line Store calls that act: `insert_row` and `del_row`
with an index in range, `row_insert_char`, `row_append_string`, and `row_del_char` with an
index in range each add exactly 1.  So on a valid state whose counter is an `int` at most
`INT_MAX - 2`, `insert_char` on an existing row, `insert_newline`, and `del_char` with `cx > 0`
add exactly 1; `insert_char` past the last row (`insert_row`, then `row_insert_char`) and
`del_char` at column 0 of a row `cy > 0` (`row_append_string`, then `del_row`) add exactly 2;
a `del_char` that does nothing leaves `dirty` as it is.  In every case the new counter is
within `INT_MIN .. INT_MAX`: no `S.dirty++` has overflowed. -/
theorem dirty_accounting (S : state) (c : Int) (hwf : S.wf) (hv : Valid S)
    (hd : dirty_room S 2) :
    ((∀ at_ s len, 0 ≤ at_ → at_ ≤ S.numrows → (insert_row S at_ s len).dirty = S.dirty + 1)
      ∧ (∀ at_, 0 ≤ at_ → at_ < S.numrows → (del_row S at_).dirty = S.dirty + 1)
      ∧ (∀ r at_ b, (row_insert_char S r at_ b).dirty = S.dirty + 1)
      ∧ (∀ r s len, (row_append_string S r s len).dirty = S.dirty + 1)
      ∧ (∀ r at_, 0 ≤ at_ → at_ < (S.row.getD r default).size →
          (row_del_char S r at_).dirty = S.dirty + 1))
    ∧ (S.cy < S.numrows → (insert_char S c).dirty = S.dirty + 1)
    ∧ (S.cy = S.numrows → (insert_char S c).dirty = S.dirty + 2)
    ∧ (insert_newline S).dirty = S.dirty + 1
    ∧ (S.cx > 0 → (del_char S).dirty = S.dirty + 1)
    ∧ (S.cx = 0 → S.cy > 0 → S.cy < S.numrows → (del_char S).dirty = S.dirty + 2)
    ∧ ((S.cy = S.numrows ∨ (S.cx = 0 ∧ S.cy = 0)) → (del_char S).dirty = S.dirty)
    ∧ (dirty_room (insert_char S c) 0 ∧ dirty_room (insert_newline S) 0
        ∧ dirty_room (del_char S) 0) := by
  have hic1 : S.cy < S.numrows → (insert_char S c).dirty = S.dirty + 1 := by
    intro h
    rw [insert_char_on_row S c hv h]
  have hic2 : S.cy = S.numrows → (insert_char S c).dirty = S.dirty + 2 := by
    intro h
    rw [insert_char_past_end S c hwf hv h]
  have hnl : (insert_newline S).dirty = S.dirty + 1 := by
    by_cases hcx : S.cx = 0
    · rw [insert_newline_col0 S hv hcx]
    · rw [insert_newline_split S hwf hv hcx]
  have hdc1 : S.cx > 0 → (del_char S).dirty = S.dirty + 1 := by
    intro h
    rw [del_char_in_row S hwf hv h]
  have hdc2 : S.cx = 0 → S.cy > 0 → S.cy < S.numrows → (del_char S).dirty = S.dirty + 2 := by
    intro h1 h2 h3
    rw [del_char_join S hwf h1 h2 h3]
  have hdc0 : (S.cy = S.numrows ∨ (S.cx = 0 ∧ S.cy = 0)) → (del_char S).dirty = S.dirty := by
    intro h
    rw [del_char_noop S h]
  refine ⟨⟨?_, ?_, fun _ _ _ => rfl, fun _ _ _ => rfl, ?_⟩, hic1, hic2, hnl, hdc1, hdc2, hdc0,
    ?_, ?_, ?_⟩
  · intro at_ s len h0 h1
    rw [insert_row_eq S at_ s len h0 h1]
  · intro at_ h0 h1
    rw [del_row_eq S at_ h0 h1]
  · intro r at_ h0 h1
    unfold row_del_char
    simp only
    rw [if_neg (by omega)]
  · obtain ⟨hcy0, hcy1, hon, hpast⟩ := hv
    simp only [dirty_room, INT_MIN, INT_MAX] at hd ⊢
    rcases lt_or_eq_of_le hcy1 with h | h
    · rw [hic1 h]
      omega
    · rw [hic2 h]
      omega
  · simp only [dirty_room, INT_MIN, INT_MAX] at hd ⊢
    rw [hnl]
    omega
  · obtain ⟨hcy0, hcy1, hon, hpast⟩ := hv
    simp only [dirty_room, INT_MIN, INT_MAX] at hd ⊢
    rcases lt_or_eq_of_le hcy1 with h | h
    · obtain ⟨hcx0, hcx1⟩ := hon h
      by_cases hcx : S.cx > 0
      · rw [hdc1 hcx]
        omega
      · have hcx0 : S.cx = 0 := by omega
        by_cases hcy : S.cy > 0
        · rw [hdc2 hcx0 hcy h]
          omega
        · rw [hdc0 (Or.inr ⟨hcx0, by omega⟩)]
          omega
    · rw [hdc0 (Or.inl h)]
      omega

theorem dirty_accounting_witness :
    (docEnd.wf ∧ Valid docEnd ∧ dirty_room docEnd 2)
    ∧ (insert_char docEnd 120).dirty = docEnd.dirty + 2 :=
  ⟨by decide,
    (dirty_accounting docEnd 120 (by decide) (by decide) (by decide)).2.2.1 (by decide)⟩

/-! ## C18 -/

/-- C18 fails in `row_del_char`: its guard lets `at = row->size` through.  On the row `"de"`
(size 2) the call with `at = 2` drops the byte `e`, leaves size 1 and adds 1 to `dirty`; on
an empty row the call with `at = 0` leaves size -1. -/
theorem row_del_char_at_size :
    ((row_del_char docABC 1 2).row.map (fun r => (r.size, r.chars))
        = [(3, [97, 98, 99]), (1, [100]), (5, [102, 103, 104, 105, 106])]
      ∧ (row_del_char docABC 1 2).dirty = docABC.dirty + 1)
    ∧ ((docRagged.row_at 2).size = 0
      ∧ ((row_del_char docRagged 2 0).row_at 2).size = -1
      ∧ (row_del_char docRagged 2 0).dirty = docRagged.dirty + 1) := by
  decide

/-! ## C12 -/

/-- C12 fails in `process_keypress`: the quit key always ends the process.  On a dirty
document with the counter at 3 the first Ctrl-Q sets the warning, lowers the counter to 2,
and then clears the screen and calls `exit(0)` all the same. -/
theorem quit_on_first_press :
    (∀ io S, process_keypress io S (CTRL_KEY 113)
        = .exited 0 [ESC, 91, 50, 74, ESC, 91, 72]
            (if S.dirty ≠ 0 ∧ S.quit_times > 0 then
              { S with statusmsg := .quit_warning S.quit_times, quit_times := S.quit_times - 1 }
             else S))
    ∧ (docDirty.dirty ≠ 0 ∧ docDirty.quit_times = OHMC_QUIT_TIMES)
    ∧ process_keypress .written docDirty (CTRL_KEY 113)
        = .exited 0 [ESC, 91, 50, 74, ESC, 91, 72]
            { docDirty with statusmsg := .quit_warning 3, quit_times := 2 }
    ∧ main_loop docDirty [(.written, CTRL_KEY 113), (.written, CTRL_KEY 113),
          (.written, CTRL_KEY 113)]
        = .exited 0 [ESC, 91, 50, 74, ESC, 91, 72]
            { docDirty with statusmsg := .quit_warning 3, quit_times := 2 } := by
  refine ⟨fun io S => ?_, by decide, by decide, by decide⟩
  rw [process_keypress]
  simp only [show ¬ (CTRL_KEY 113 = CR) by decide, if_false, if_true]

/-! ## Loading and saving -/

theorem getlines_line (l rest cur : List Int) (hl : NL ∉ l) :
    getlines (l ++ NL :: rest) cur = (cur ++ l ++ [NL]) :: getlines rest [] := by
  induction l generalizing cur with
  | nil => simp [getlines]
  | cons c cs ih =>
    have hc : c ≠ NL := fun h => hl (by rw [h]; exact List.mem_cons_self _ _)
    have hcs : NL ∉ cs := fun h => hl (List.mem_cons_of_mem _ h)
    rw [List.cons_append, getlines, if_neg hc, ih _ hcs]
    simp

theorem getlines_file (ls : List (List Int)) (hls : ∀ l ∈ ls, NL ∉ l) :
    getlines (file_of_lines ls) [] = ls.map (fun l => l ++ [NL]) := by
  induction ls with
  | nil => rfl
  | cons l ls ih =>
    rw [file_of_lines, getlines_line _ _ _ (hls l (List.mem_cons_self _ _)),
      ih (fun x hx => hls x (List.mem_cons_of_mem _ hx))]
    simp

theorem strip_linelen_line (l : List Int) (h1 : NL ∉ l) (h2 : l.getLast? ≠ some CR) :
    strip_linelen (l ++ [NL]) (l ++ [NL]).length = l.length := by
  have e : (l ++ [NL]).length = l.length + 1 := by simp
  rw [e, strip_linelen]
  have e1 : (l ++ [NL]).getD l.length 0 = NL := getD_concat_length _ _ _
  rw [e1, if_pos (Or.inl rfl)]
  rcases List.eq_nil_or_concat l with h | ⟨l', x, h⟩
  · subst h; rfl
  · rw [List.concat_eq_append] at h
    subst h
    have hx1 : x ≠ NL := fun h => h1 (by rw [h]; simp)
    have hx2 : x ≠ CR := fun h => h2 (by rw [h]; simp)
    have e2 : (l' ++ [x]).length = l'.length + 1 := by simp
    have e3 : (l' ++ [x] ++ [NL]).getD l'.length 0 = x := by
      rw [List.append_assoc]
      exact getD_insert_here _ _ _ _ _ rfl
    rw [e2, strip_linelen, e3, if_neg (by simp [hx1, hx2])]

theorem file_of_lines_append (as bs : List (List Int)) :
    file_of_lines (as ++ bs) = file_of_lines as ++ file_of_lines bs := by
  induction as with
  | nil => rfl
  | cons l ls ih => simp [file_of_lines, ih]

theorem rows_to_string_buf (rs : List erow) (acc : List Int)
    (hrs : ∀ r ∈ rs, r.size = r.chars.length) :
    rs.foldl (fun buf r => buf ++ r.chars.take r.size.toNat ++ [NL]) acc
      = acc ++ file_of_lines (rs.map erow.chars) := by
  induction rs generalizing acc with
  | nil => simp [file_of_lines]
  | cons r rs ih =>
    have hr := hrs r (List.mem_cons_self _ _)
    have e : r.chars.take r.size.toNat = r.chars := List.take_of_length_le (by omega)
    rw [List.foldl_cons, ih _ (fun x hx => hrs x (List.mem_cons_of_mem _ hx)), e]
    simp [file_of_lines]

theorem rows_to_string_len (rs : List erow) (acc : Int)
    (hrs : ∀ r ∈ rs, r.size = r.chars.length) :
    rs.foldl (fun totlen r => totlen + (r.size + 1)) acc
      = acc + (file_of_lines (rs.map erow.chars)).length := by
  induction rs generalizing acc with
  | nil => simp [file_of_lines]
  | cons r rs ih =>
    have hr := hrs r (List.mem_cons_self _ _)
    rw [List.foldl_cons, ih _ (fun x hx => hrs x (List.mem_cons_of_mem _ hx))]
    simp only [List.map_cons, file_of_lines, List.length_append, List.length_cons, Nat.cast_add,
      Nat.cast_one, hr]
    omega

/-- The serialized document of a well-formed state is its rows' `chars`, each followed by
`'\n'`, and the reported length is the length of that buffer. -/
theorem rows_to_string_eq (S : state) (hwf : S.wf) :
    rows_to_string S = (file_of_lines (S.row.map erow.chars),
      ((file_of_lines (S.row.map erow.chars)).length : Int)) := by
  have e : S.row.take S.numrows.toNat = S.row := List.take_of_length_le (by have := hwf.1; omega)
  simp only [rows_to_string, e, rows_to_string_buf _ _ hwf.2, rows_to_string_len _ _ hwf.2,
    List.nil_append, zero_add]

theorem editor_open_loop_rows (ls : List (List Int)) (S : state) (hnum : S.numrows = S.row.length)
    (hls : ∀ l ∈ ls, NL ∉ l ∧ l.getLast? ≠ some CR) :
    (ls.map (fun l => l ++ [NL])).foldl
        (fun S line => insert_row S S.numrows line (strip_linelen line line.length)) S
      = { S with
          row := S.row ++ ls.map (fun l =>
            update_row { size := l.length, rsize := 0, chars := l, render := [] })
          numrows := S.numrows + ls.length
          dirty := S.dirty + ls.length } := by
  induction ls generalizing S with
  | nil =>
    obtain ⟨rows, cols, cx, cy, rx, rowoff, coloff, numrows, row, dirty, msg, qt⟩ := S
    simp
  | cons l ls ih =>
    obtain ⟨h1, h2⟩ := hls l (List.mem_cons_self _ _)
    have e1 : S.numrows.toNat = S.row.length := by omega
    have e2 : (l ++ [NL]).take l.length = l := List.take_left' rfl
    have hstep : insert_row S S.numrows (l ++ [NL]) (strip_linelen (l ++ [NL]) (l ++ [NL]).length)
        = { S with
            row := S.row ++ [update_row { size := l.length, rsize := 0, chars := l, render := [] }]
            numrows := S.numrows + 1
            dirty := S.dirty + 1 } := by
      rw [strip_linelen_line l h1 h2, insert_row_eq S _ _ _ (by omega) (le_refl _)]
      simp only [e1, List.take_length, List.drop_length, Int.toNat_ofNat, e2]
    rw [List.map_cons, List.foldl_cons, hstep]
    refine (ih _ ?_ (fun x hx => hls x (List.mem_cons_of_mem _ hx))).trans ?_
    · simp only [List.length_append, List.length_singleton, Nat.cast_add, Nat.cast_one, hnum]
    · simp only [List.append_assoc, List.singleton_append, List.map_cons, List.length_cons,
        Nat.cast_add, Nat.cast_one]
      congr 1 <;> omega

/-! ## C11 -/

/-- C11, as stated, fails: the file `"a\r\n"` is one line terminated by `'\n'`, but it is
loaded as the row `"a"` and saved as `"a\n"`. -/
theorem load_save_counterexample :
    NL ∉ ([97, 13] : List Int)
    ∧ file_of_lines [[97, 13]] = [97, 13, 10]
    ∧ (rows_to_string (editor_open (init 24 80) (file_of_lines [[97, 13]]))).1 = [97, 10]
    ∧ (rows_to_string (editor_open (init 24 80) (file_of_lines [[97, 13]]))).1
        ≠ file_of_lines [[97, 13]] := by
  decide

/-- C11, amended.  For a file that consists of lines each terminated by `'\n'` (no partial
last line) none of which has `'\r'` as its last byte, `editor_open` on the state left by
`init` makes one row per line, holding the line without its terminator, and `rows_to_string`
then gives back exactly the bytes of the file, with the length of the file as reported
length. -/
theorem load_save_round_trip (ws_row ws_col : Int) (ls : List (List Int))
    (hls : ∀ l ∈ ls, NL ∉ l ∧ l.getLast? ≠ some CR) :
    (editor_open (init ws_row ws_col) (file_of_lines ls)).row.map erow.chars = ls
    ∧ (editor_open (init ws_row ws_col) (file_of_lines ls)).numrows = ls.length
    ∧ rows_to_string (editor_open (init ws_row ws_col) (file_of_lines ls))
        = (file_of_lines ls, ((file_of_lines ls).length : Int)) := by
  have hopen : editor_open (init ws_row ws_col) (file_of_lines ls)
      = { init ws_row ws_col with
          row := ls.map (fun l =>
            update_row { size := l.length, rsize := 0, chars := l, render := [] })
          numrows := ls.length } := by
    rw [editor_open]
    simp only [getlines_file ls (fun l hl => (hls l hl).1),
      editor_open_loop_rows ls (init ws_row ws_col) rfl hls]
    simp [init]
  have hchars : (ls.map (fun l =>
      update_row { size := l.length, rsize := 0, chars := l, render := [] })).map erow.chars
      = ls := by
    rw [List.map_map]
    exact (List.map_congr_left (fun l _ => rfl)).trans (List.map_id ls)
  have hwf : (editor_open (init ws_row ws_col) (file_of_lines ls)).wf := by
    rw [hopen]
    refine ⟨by simp, ?_⟩
    intro r hr
    obtain ⟨l, _, rfl⟩ := List.mem_map.1 hr
    rfl
  refine ⟨by rw [hopen]; exact hchars, by rw [hopen], ?_⟩
  rw [rows_to_string_eq _ hwf, hopen]
  simp only [hchars]

theorem load_save_round_trip_witness :
    (∀ l ∈ [[97, 9, 98], [], [13, 99]], NL ∉ l ∧ l.getLast? ≠ some CR)
    ∧ rows_to_string (editor_open (init 26 80) [97, 9, 98, 10, 10, 13, 99, 10])
        = ([97, 9, 98, 10, 10, 13, 99, 10], 8) :=
  ⟨by decide, (load_save_round_trip 26 80 [[97, 9, 98], [], [13, 99]] (by decide)).2.2⟩

/-! ## Forward delete -/

theorem file_of_lines_mid (P Q : List (List Int)) (c : List Int) :
    file_of_lines (P ++ c :: Q) = file_of_lines P ++ (c ++ NL :: file_of_lines Q) := by
  rw [file_of_lines_append, file_of_lines]

theorem file_erase_char (P Q : List (List Int)) (cur : List Int) (k : Nat)
    (hk : k < cur.length) :
    (file_of_lines (P ++ cur :: Q)).eraseIdx ((file_of_lines P).length + k)
        = file_of_lines (P ++ cur.eraseIdx k :: Q)
    ∧ (file_of_lines (P ++ cur :: Q))[(file_of_lines P).length + k]? = cur[k]? := by
  rw [file_of_lines_mid, file_of_lines_mid]
  constructor
  · rw [List.eraseIdx_append_of_length_le (by omega), Nat.add_sub_cancel_left,
      List.eraseIdx_append_of_lt_length hk]
  · rw [List.getElem?_append_right (by omega), Nat.add_sub_cancel_left,
      List.getElem?_append_left hk]

theorem file_erase_break (P Q : List (List Int)) (c d : List Int) :
    (file_of_lines (P ++ c :: d :: Q)).eraseIdx ((file_of_lines P).length + c.length)
        = file_of_lines (P ++ (c ++ d) :: Q)
    ∧ (file_of_lines (P ++ c :: d :: Q))[(file_of_lines P).length + c.length]? = some NL := by
  rw [file_of_lines_mid, file_of_lines_mid]
  constructor
  · rw [List.eraseIdx_append_of_length_le (by omega), Nat.add_sub_cancel_left,
      List.eraseIdx_append_of_length_le (le_refl _), Nat.sub_self]
    simp [file_of_lines]
  · rw [List.getElem?_append_right (by omega), Nat.add_sub_cancel_left,
      List.getElem?_append_right (le_refl _), Nat.sub_self]
    exact List.getElem?_cons_zero

theorem process_keypress_del (io : SaveOutcome) (S : state) :
    process_keypress io S DEL_KEY
      = .running { del_char (move_cursor S ARROW_RIGHT) with quit_times := OHMC_QUIT_TIMES } := by
  rw [process_keypress]
  simp only [show ¬ (DEL_KEY = CR) by decide, show ¬ (DEL_KEY = CTRL_KEY 113) by decide,
    show ¬ (DEL_KEY = CTRL_KEY 115) by decide, show ¬ (DEL_KEY = PAGE_UP) by decide,
    show ¬ (DEL_KEY = PAGE_DOWN) by decide, show ¬ (DEL_KEY = HOME_KEY) by decide,
    show ¬ (DEL_KEY = END_KEY) by decide, or_self, or_true, if_false, if_true]

theorem map_chars_decomp (S : state) (n : Nat) (h : n < S.row.length) :
    S.row.map erow.chars = (S.row.take n).map erow.chars
      ++ (S.row.getD n default).chars :: (S.row.drop (n + 1)).map erow.chars := by
  conv_lhs => rw [row_decomp S n h]
  rw [List.map_append, List.map_cons]

/-- Forward delete inside a row: the byte under the cursor goes. -/
theorem forward_delete_char (S : state) (hwf : S.wf) (hv : Valid S) (hrow : S.cy < S.numrows)
    (hlt : S.cx < (S.row_at S.cy).size) :
    ∃ D, del_char (move_cursor S ARROW_RIGHT) = D ∧ D.wf ∧ D.cy = S.cy ∧ D.cx = S.cx
      ∧ D.numrows = S.numrows
      ∧ D.row.map erow.chars = (S.row.take S.cy.toNat).map erow.chars
          ++ (S.row_at S.cy).chars.eraseIdx S.cx.toNat
          :: (S.row.drop (S.cy.toNat + 1)).map erow.chars := by
  obtain ⟨hcy0, hcy1, hon, hpast⟩ := id hv
  obtain ⟨hcx0, hcx1⟩ := hon hrow
  have hnum := hwf.1
  have hsz := wf_row_at S hwf S.cy hcy0 hrow
  have hlen : S.cy.toNat < S.row.length := by omega
  have hR : move_cursor S ARROW_RIGHT = { S with cx := S.cx + 1 } := by
    rw [move_cursor_right S hwf hv, if_pos hrow, if_pos hlt]
  have e1 : (S.cx + 1 - 1).toNat = S.cx.toNat := by congr 1; omega
  simp only [state.row_at] at hsz hlt hcx1
  refine ⟨_, rfl, ?_⟩
  rw [hR]
  have hD := del_char_in_row_of { S with cx := S.cx + 1 } hcy0 hrow hsz
    (by show S.cx + 1 > 0; omega)
    (by show S.cx + 1 ≤ (S.row.getD S.cy.toNat default).size; omega)
  rw [hD]
  refine ⟨⟨?_, ?_⟩, rfl, ?_, rfl, ?_⟩
  · simp only [List.length_set]; exact hnum
  · simp only [state.row_at, e1]
    apply all_set _ _ _ _ hwf.2
    simp only [update_row_size, update_row_chars]
    rw [List.length_eraseIdx_of_lt (by omega)]
    omega
  · show S.cx + 1 - 1 = S.cx; omega
  · simp only [state.row_at, e1]
    have hpre : ((S.row.take S.cy.toNat).map erow.chars).length = S.cy.toNat := by
      rw [List.length_map, List.length_take]; omega
    rw [List.map_set, map_chars_decomp S _ hlen, List.set_append_right _ _ (by omega), hpre,
      Nat.sub_self]
    rfl

/-- Forward delete at the end of a row that is not the last: the next row is joined on. -/
theorem forward_delete_break (S : state) (hwf : S.wf) (hv : Valid S)
    (hrow : S.cy + 1 < S.numrows) (heq : S.cx = (S.row_at S.cy).size) :
    ∃ D, del_char (move_cursor S ARROW_RIGHT) = D ∧ D.wf ∧ D.cy = S.cy ∧ D.cx = S.cx
      ∧ D.numrows = S.numrows - 1
      ∧ D.row.map erow.chars = (S.row.take S.cy.toNat).map erow.chars
          ++ ((S.row_at S.cy).chars ++ (S.row_at (S.cy + 1)).chars)
          :: (S.row.drop (S.cy.toNat + 2)).map erow.chars := by
  obtain ⟨hcy0, hcy1, hon, hpast⟩ := id hv
  have hnum := hwf.1
  have hsz := wf_row_at S hwf S.cy hcy0 (by omega)
  have hszn := wf_row_at S hwf (S.cy + 1) (by omega) hrow
  have hR : move_cursor S ARROW_RIGHT = { S with cy := S.cy + 1, cx := 0 } := by
    rw [move_cursor_right S hwf hv, if_pos (by omega), if_neg (by omega)]
  have e0 : S.cy + 1 - 1 = S.cy := by omega
  have e1 : (S.cy + 1 - 1).toNat = S.cy.toNat := by rw [e0]
  have e2 : (S.cy + 1 + 1).toNat = S.cy.toNat + 2 := by omega
  have hpre : (S.row.take S.cy.toNat).length = S.cy.toNat := by
    rw [List.length_take]; omega
  refine ⟨_, rfl, ?_⟩
  rw [hR]
  have hD := del_char_join_of { S with cy := S.cy + 1, cx := 0 } hnum hszn rfl
    (by show S.cy + 1 > 0; omega) hrow
  rw [hD]
  refine ⟨⟨?_, ?_⟩, ?_, ?_, rfl, ?_⟩
  · simp only [state.row_at, e0, e1, e2, List.length_append, List.length_cons, List.length_take,
      List.length_drop]
    omega
  · simp only [state.row_at, e0, e1, e2]
    apply all_splice _ S.row [_] _ _ hwf.2
    intro r hr
    rw [List.mem_singleton.1 hr]
    simp only [state.row_at] at hsz hszn
    simp only [update_row_size, update_row_chars, List.length_append]
    omega
  · show S.cy + 1 - 1 = S.cy; omega
  · simp only [state.row_at, e0]
    exact heq.symm
  · simp only [state.row_at, e0, e1, e2, List.map_append, List.map_cons, update_row_chars]

theorem length_eraseIdx_of_some {α : Type} (l : List α) (k : Nat) (x : α)
    (h : l[k]? = some x) : ((l.eraseIdx k).length : Int) = l.length - 1 := by
  obtain ⟨hk, _⟩ := List.getElem?_eq_some.1 h
  rw [List.length_eraseIdx_of_lt hk]
  omega

/-! ## C19 -/

/-- C19. Forward delete keeps the cursor in place: in a valid state whose cursor is on a row
and not at the end of the last row, the key `DEL_KEY` (for which `process_keypress` runs
`move_cursor(ARROW_RIGHT)` and then `del_char`) leaves `(cy, cx)` as it was and takes exactly
one byte out of the document serialized by `rows_to_string`, the byte at the cursor's
offset, so that the reported length goes down by one.  With `cx < size` that byte is
`chars[cx]` of row `cy`; with `cx = size` it is the line break after row `cy`, and row `cy`
then holds its own bytes followed by those of the old row `cy + 1`. -/
theorem forward_delete (io : SaveOutcome) (S : state) (hwf : S.wf) (hv : Valid S)
    (hrow : S.cy < S.numrows)
    (hnl : ¬ (S.cy + 1 = S.numrows ∧ S.cx = (S.row_at S.cy).size)) :
    ∃ T, process_keypress io S DEL_KEY = .running T
      ∧ (T.cy = S.cy ∧ T.cx = S.cx)
      ∧ (rows_to_string T).1 = (rows_to_string S).1.eraseIdx (cursor_offset S)
      ∧ (rows_to_string T).2 = (rows_to_string S).2 - 1
      ∧ (S.cx < (S.row_at S.cy).size →
          (rows_to_string S).1[cursor_offset S]? = (S.row_at S.cy).chars[S.cx.toNat]?
          ∧ T.numrows = S.numrows)
      ∧ (S.cx = (S.row_at S.cy).size →
          (rows_to_string S).1[cursor_offset S]? = some NL
          ∧ T.numrows = S.numrows - 1
          ∧ (T.row_at S.cy).chars = (S.row_at S.cy).chars ++ (S.row_at (S.cy + 1)).chars) := by
  obtain ⟨hcy0, hcy1, hon, hpast⟩ := id hv
  obtain ⟨hcx0, hcx1⟩ := hon hrow
  have hnum := hwf.1
  have hsz := wf_row_at S hwf S.cy hcy0 hrow
  have hlen : S.cy.toNat < S.row.length := by omega
  have hS := rows_to_string_eq S hwf
  have hmap := map_chars_decomp S _ hlen
  have hoff : cursor_offset S
      = (file_of_lines ((S.row.take S.cy.toNat).map erow.chars)).length + S.cx.toNat := rfl
  refine ⟨_, process_keypress_del io S, ?_⟩
  by_cases hlt : S.cx < (S.row_at S.cy).size
  · obtain ⟨D, hD, hDwf, hDcy, hDcx, hDnum, hDmap⟩ := forward_delete_char S hwf hv hrow hlt
    have hk : S.cx.toNat < (S.row.getD S.cy.toNat default).chars.length := by
      simp only [state.row_at] at hlt hsz; omega
    obtain ⟨he, hg⟩ := file_erase_char ((S.row.take S.cy.toNat).map erow.chars)
      ((S.row.drop (S.cy.toNat + 1)).map erow.chars) _ _ hk
    have hT := rows_to_string_eq D hDwf
    have hbuf : (rows_to_string D).1 = (rows_to_string S).1.eraseIdx (cursor_offset S) := by
      rw [hT, hS, hoff, hmap, hDmap]
      exact he.symm
    have hget : (rows_to_string S).1[cursor_offset S]?
        = (S.row_at S.cy).chars[S.cx.toNat]? := by
      rw [hS, hoff, hmap]
      exact hg
    have hsome : ∃ x, (rows_to_string S).1[cursor_offset S]? = some x := by
      rw [hget]
      exact ⟨_, List.getElem?_eq_getElem hk⟩
    obtain ⟨x, hx⟩ := hsome
    have hlenD : (rows_to_string D).2 = (rows_to_string S).2 - 1 := by
      have h2 : (rows_to_string D).2 = ((rows_to_string D).1.length : Int) := by rw [hT]
      have h3 : (rows_to_string S).2 = ((rows_to_string S).1.length : Int) := by rw [hS]
      rw [h2, h3, hbuf]
      exact length_eraseIdx_of_some _ _ _ hx
    rw [hD]
    exact ⟨⟨hDcy, hDcx⟩, hbuf, hlenD, fun _ => ⟨hget, hDnum⟩, fun h => absurd hlt (by omega)⟩
  · have heq : S.cx = (S.row_at S.cy).size := by omega
    have hrow2 : S.cy + 1 < S.numrows := by
      rcases lt_or_eq_of_le (show S.cy + 1 ≤ S.numrows by omega) with h | h
      · exact h
      · exact absurd ⟨h, heq⟩ hnl
    obtain ⟨D, hD, hDwf, hDcy, hDcx, hDnum, hDmap⟩ := forward_delete_break S hwf hv hrow2 heq
    have hlen2 : S.cy.toNat + 1 < S.row.length := by omega
    have hdrop : (S.row.drop (S.cy.toNat + 1)).map erow.chars
        = (S.row_at (S.cy + 1)).chars :: (S.row.drop (S.cy.toNat + 2)).map erow.chars := by
      have e : (S.cy + 1).toNat = S.cy.toNat + 1 := by omega
      rw [state.row_at, e, List.getD_eq_getElem _ _ hlen2, ← List.map_cons,
        List.getElem_cons_drop]
    have hcx : S.cx.toNat = (S.row.getD S.cy.toNat default).chars.length := by
      simp only [state.row_at] at heq hsz; omega
    obtain ⟨he, hg⟩ := file_erase_break ((S.row.take S.cy.toNat).map erow.chars)
      ((S.row.drop (S.cy.toNat + 2)).map erow.chars) (S.row.getD S.cy.toNat default).chars
      (S.row_at (S.cy + 1)).chars
    have hT := rows_to_string_eq D hDwf
    have hbuf : (rows_to_string D).1 = (rows_to_string S).1.eraseIdx (cursor_offset S) := by
      rw [hT, hS, hoff, hmap, hDmap, hdrop, hcx]
      exact he.symm
    have hget : (rows_to_string S).1[cursor_offset S]? = some NL := by
      rw [hS, hoff, hmap, hdrop, hcx]
      exact hg
    have hlenD : (rows_to_string D).2 = (rows_to_string S).2 - 1 := by
      have h2 : (rows_to_string D).2 = ((rows_to_string D).1.length : Int) := by rw [hT]
      have h3 : (rows_to_string S).2 = ((rows_to_string S).1.length : Int) := by rw [hS]
      rw [h2, h3, hbuf]
      exact length_eraseIdx_of_some _ _ _ hget
    rw [hD]
    refine ⟨⟨hDcy, hDcx⟩, hbuf, hlenD, fun h => absurd h hlt, fun _ => ⟨hget, hDnum, ?_⟩⟩
    · have hpre : ((S.row.take S.cy.toNat).map erow.chars).length = S.cy.toNat := by
        rw [List.length_map, List.length_take]; omega
      have h1 : (D.row.map erow.chars).getD S.cy.toNat (erow.chars default)
          = (D.row.getD S.cy.toNat default).chars := List.getD_map _ _ _
      show (D.row.getD S.cy.toNat default).chars = _
      rw [← h1, hDmap]
      exact getD_insert_here _ _ _ _ _ hpre

theorem forward_delete_witness :
    (docTab.wf ∧ Valid docTab ∧ docTab.cy < docTab.numrows
      ∧ ¬ (docTab.cy + 1 = docTab.numrows ∧ docTab.cx = (docTab.row_at docTab.cy).size))
    ∧ ∃ T, process_keypress .written docTab DEL_KEY = .running T
        ∧ (T.cy = docTab.cy ∧ T.cx = docTab.cx)
        ∧ (rows_to_string T).1 = (rows_to_string docTab).1.eraseIdx (cursor_offset docTab) :=
  ⟨by decide,
    (forward_delete .written docTab (by decide) (by decide) (by decide) (by decide)).imp
      fun _ h => ⟨h.1, h.2.1, h.2.2.1⟩⟩

end Ohmc
